import Mathlib

/-!
# Verification of the Dive Sailthru client core

Shallow embedding of `dive_sailthru_client/client.py` (a Python 2 module):
JSON-like values are modelled by `PyVal`, Python exceptions by `PyErr`,
fallible code by `Except PyErr`.  Strings are modelled at text level:
the module's `str.encode('utf-8', errors='replace')` is the identity on
strings (the prefix test against the ASCII literal "BREAKING" is unaffected
by the UTF-8 byte encoding) and raises `AttributeError` on any non-string
value, exactly as `None.encode` does in Python.

Python dicts are modelled as association lists with insertion-order
semantics: lookup returns the first (unique, in any real dict) binding and
assignment updates in place or appends.  Theorems that need the Python
guarantee that keys are unique take an explicit `Nodup` hypothesis.
-/

/-- A JSON-ish Python value: `None`, an int, a string, a list or a dict
(association list in insertion order). -/
inductive PyVal where
  | none : PyVal
  | int : Int → PyVal
  | str : String → PyVal
  | list : List PyVal → PyVal
  | dict : List (String × PyVal) → PyVal

/-- The Python exceptions the embedded code can raise.  `sailthruApiError`
carries the formatted message `"%s (%s)" % (message, code)`. -/
inductive PyErr where
  | attributeError : PyErr
  | keyError : PyErr
  | typeError : PyErr
  | sailthruApiError : String → PyErr
deriving DecidableEq, Repr

/-- Python truthiness of a `PyVal` (`bool(v)`). -/
def truthy : PyVal → Bool
  | .none => false
  | .int n => n != 0
  | .str s => !s.data.isEmpty
  | .list xs => !xs.isEmpty
  | .dict es => !es.isEmpty

/-- Embedding of `d.get(k, default)` on a Python dict: value of the first binding of `k`,
or `default` when `k` is unbound. -/
def dictGet (es : List (String × PyVal)) (k : String) (dflt : PyVal) : PyVal :=
  match es with
  | [] => dflt
  | (k', v) :: rest => if k' = k then v else dictGet rest k dflt

/-- Embedding of `k in d` on a Python dict. -/
def hasKey (es : List (String × PyVal)) (k : String) : Bool :=
  match es with
  | [] => false
  | (k', _) :: rest => k' = k || hasKey rest k

/-- Embedding of `d[k] = v` on a Python dict: update the existing binding in place, else
append a new binding (insertion order). -/
def dictSet (es : List (String × PyVal)) (k : String) (v : PyVal) :
    List (String × PyVal) :=
  match es with
  | [] => [(k, v)]
  | (k', v') :: rest => if k' = k then (k, v) :: rest else (k', v') :: dictSet rest k v

/-- Contiguous-occurrence test for character lists: `pat` occurs inside `s`
starting at some position. -/
def charsContain (s pat : List Char) : Bool :=
  pat.isPrefixOf s ||
    match s with
    | [] => false
    | _ :: t => charsContain t pat

/-- Python substring test `pat in s` (contiguous occurrence; the empty
pattern always occurs). -/
def strContains (s pat : String) : Bool :=
  charsContain s.data pat.data

/-!
String operations are implemented over the character list `String.data`.
Python's `.lower()` is modelled on its ASCII part (the full Unicode case
table is out of scope); every string the source compares against is ASCII.
-/

/-- Embedding of `s == ""` / Python falsiness of a string. -/
def strIsEmpty (s : String) : Bool := s.data.isEmpty

/-- Embedding of `s.startswith(t)`. -/
def strStartsWith (s t : String) : Bool := t.data.isPrefixOf s.data

/-- Embedding of `s.endswith(t)`. -/
def strEndsWith (s t : String) : Bool := t.data.isSuffixOf s.data

/-- ASCII `c.lower()`. -/
def charLower (c : Char) : Char :=
  if 'A' ≤ c && c ≤ 'Z' then Char.ofNat (c.toNat + 32) else c

/-- ASCII `s.lower()`. -/
def strToLower (s : String) : String := ⟨s.data.map charLower⟩

/-- Embedding of `s[:-n]` for `n ≤ len(s)`: drop the last `n` characters. -/
def strDropRight (s : String) (n : Nat) : String := ⟨s.data.take (s.data.length - n)⟩

/-- Embedding of `campaign.get(k, default)`: dicts have a `get` method, anything else
raises `AttributeError`. -/
def pyGet (v : PyVal) (k : String) (dflt : PyVal) : Except PyErr PyVal :=
  match v with
  | .dict es => pure (dictGet es k dflt)
  | _ => throw .attributeError

/-- Embedding of `v[k]` subscription of a Python value by a string key: missing keys raise
`KeyError`, non-dicts raise `TypeError`. -/
def pyGetItem (v : PyVal) (k : String) : Except PyErr PyVal :=
  match v with
  | .dict es => if hasKey es k then pure (dictGet es k .none) else throw .keyError
  | _ => throw .typeError

/-- Embedding of `v[k] = x` on a Python value: only dicts support item assignment. -/
def pySetItem (v : PyVal) (k : String) (x : PyVal) : Except PyErr PyVal :=
  match v with
  | .dict es => pure (.dict (dictSet es k x))
  | _ => throw .typeError

/-- Embedding of `s.encode('utf-8', errors='replace')` at text level: identity on strings,
`AttributeError` on any other value (e.g. `None`). -/
def pyEncode (v : PyVal) : Except PyErr PyVal :=
  match v with
  | .str _ => pure v
  | _ => throw .attributeError

/-- Python membership `x in container`: list membership by equality, substring
test on strings, key membership on dicts; ints and `None` are not containers. -/
def strElem (xs : List PyVal) (t : String) : Bool :=
  xs.any (fun v => match v with | .str s => s = t | _ => false)

/-- Python membership `x in container` for a *string* `x` (the only form the
embedded code uses): list membership by `==` (a string equals no value of
another type), substring test on strings, key membership on dicts; ints and
`None` are not containers. -/
def pyIn (x : String) (container : PyVal) : Except PyErr Bool :=
  match container with
  | .list xs => pure (strElem xs x)
  | .str s => pure (strContains s x)
  | .dict es => pure (hasKey es x)
  | _ => throw .typeError

/-- Embedding of `v.endswith(suf)`: a string method, `AttributeError` otherwise. -/
def pyEndsWith (v : PyVal) (suf : String) : Except PyErr Bool :=
  match v with
  | .str s => pure (strEndsWith s suf)
  | _ => throw .attributeError

/-- Embedding of `v.startswith(pre)`: a string method, `AttributeError` otherwise. -/
def pyStartsWith (v : PyVal) (pre : String) : Except PyErr Bool :=
  match v with
  | .str s => pure (strStartsWith s pre)
  | _ => throw .attributeError

/-- Embedding of `v.lower()`: a string method, `AttributeError` otherwise. -/
def pyLower (v : PyVal) : Except PyErr String :=
  match v with
  | .str s => pure (strToLower s)
  | _ => throw .attributeError

/-- Short-circuiting Python `or` over two fallible boolean tests. -/
def pyOr (a : Except PyErr Bool) (b : Unit → Except PyErr Bool) :
    Except PyErr Bool := do
  let x ← a
  if x then pure true else b ()

/-! ## The Dive email type tags (`DiveEmailTypes`) -/

namespace DiveEmailTypes

def Blast : String := "blast"
def WelcomeSeries : String := "welcome"
def Newsletter : String := "newsletter"
def Weekender : String := "weekender"
def Unknown : String := "unknown"
def BreakingNews : String := "breaking"

end DiveEmailTypes

/-! ## The campaign classifier -/

/-- Embedding of `re.sub(r' [Bb]last [Ll]ist$', '', s)`: the anchored pattern
matches exactly the four 11-character suffixes below (each word optionally
initial-capitalized), and `re.sub` with an anchored pattern removes at most
one occurrence, at the end. -/
def stripBlastListSuffix (s : String) : String :=
  if strEndsWith s " blast list" || strEndsWith s " blast List" ||
      strEndsWith s " Blast list" || strEndsWith s " Blast List" then
    strDropRight s 11
  else s

/-- Embedding of `re.sub(r' [Ww]eekender$', '', s)`: removes one of the two
10-character suffixes below from the end, if present. -/
def stripWeekenderSuffix (s : String) : String :=
  if strEndsWith s " weekender" || strEndsWith s " Weekender" then
    strDropRight s 10
  else s

/-- The character class `[A-Za-z]` (same set as `[a-zA-Z]`). -/
def isAsciiLetter (c : Char) : Bool :=
  ('A' ≤ c && c ≤ 'Z') || ('a' ≤ c && c ≤ 'z')

/-- Embedding of `re.match(r'[A-Za-z]+ Dive: [a-zA-Z]+', s) is not None`.
A match anchored at the start needs a nonempty letter run, then the literal
`" Dive: "`, then at least one letter.  Since the character after the first
group in any match is a space (not a letter), the group must be exactly the
maximal letter run at the start of `s`, so greedy matching without
backtracking is complete. -/
def matchesAlphaDive (s : String) : Bool :=
  let w1 := s.data.takeWhile isAsciiLetter
  let rest := s.data.dropWhile isAsciiLetter
  (!w1.isEmpty) && " Dive: ".data.isPrefixOf rest &&
    (match rest.drop 7 with
     | c :: _ => isAsciiLetter c
     | [] => false)

/-- Embedding of `DiveSailthruClient._infer_dive_email_type` (client.py lines
62-87).  The four field reads (`campaign.get`) and the permissive re-encoding
of the subject happen before any rule is tested; the rules are then tried in
order with Python's short-circuit `or`. -/
def inferDiveEmailType (campaign : PyVal) : Except PyErr String := do
  let labels ← pyGet campaign "labels" (.list [])
  let name ← pyGet campaign "name" (.str "")
  let listv ← pyGet campaign "list" (.str "")
  let subject ← pyEncode (← pyGet campaign "subject" (.str ""))
  if (← pyOr (pyIn "Blast" labels) (fun _ => pyIn "-blast-" name)) then
    pure DiveEmailTypes.Blast
  else if (← pyIn "Welcome Series" labels) then
    pure DiveEmailTypes.WelcomeSeries
  else if (← pyOr (pyEndsWith listv "Weekender")
      (fun _ => pyStartsWith name "Newsletter Weekly Roundup")) then
    pure DiveEmailTypes.Weekender
  else if (← pyOr (pyIn "newsletter" labels)
      (fun _ => pyStartsWith name "Issue: ")) then
    pure DiveEmailTypes.Newsletter
  else if strEndsWith (← pyLower listv) "blast list" then
    pure DiveEmailTypes.Blast
  else if (← pyStartsWith subject "BREAKING") then
    pure DiveEmailTypes.BreakingNews
  else
    pure DiveEmailTypes.Unknown

/-- Embedding of `DiveSailthruClient._infer_dive_brand` (client.py lines
89-106).  A non-string `list` value raises `AttributeError` at the first
`.lower()` call, exactly as in Python. -/
def inferDiveBrand (campaign : PyVal) : Except PyErr PyVal := do
  let listv ← pyGet campaign "list" (.str "")
  match listv with
  | .str s =>
      if strEndsWith (strToLower s) "blast list" then
        pure (.str (stripBlastListSuffix s))
      else if strEndsWith (strToLower s) "weekender" then
        pure (.str (stripWeekenderSuffix s))
      else if strEndsWith s " Dive" || matchesAlphaDive s then
        pure (.str s)
      else
        pure .none
  | _ => throw .attributeError

/-! ## The result normalizer (`merge_results`) -/

/-- The second loop of `merge_results` (client.py lines 36-38): copy through
every binding of `result_json` whose key the defaults loop did not cover. -/
def secondLoop (rs results : List (String × PyVal)) : List (String × PyVal) :=
  match rs with
  | [] => results
  | (k, v) :: rest =>
      if hasKey results k then secondLoop rest results
      else secondLoop rest (dictSet results k v)

mutual

/-- Embedding of `merge_results(result_json, defaults)` (client.py lines
10-40).  Iterating `defaults.items()`, or reading `result_json.get` /
`result_json.items()`, raises `AttributeError` unless the respective value
is a dict. -/
def merge_results (result_json defaults : PyVal) : Except PyErr PyVal :=
  match result_json, defaults with
  | .dict rs, .dict ds =>
      (mergeLoop rs ds []).map (fun results => .dict (secondLoop rs results))
  | _, _ => throw .attributeError
termination_by sizeOf defaults

/-- The first loop of `merge_results` (client.py lines 21-33), with `results`
threaded as the accumulator `acc`. -/
def mergeLoop (rs ds acc : List (String × PyVal)) :
    Except PyErr (List (String × PyVal)) :=
  match ds with
  | [] => pure acc
  | (k, v) :: rest =>
      match v with
      | .dict dv => do
          let old_val := dictGet rs k (.dict [])
          let new_val ←
            if truthy old_val && truthy (.dict dv) then
              merge_results old_val (.dict dv)
            else if truthy old_val then
              pure old_val
            else
              pure (.dict dv)
          mergeLoop rs rest (dictSet acc k new_val)
      | _ => mergeLoop rs rest (dictSet acc k (dictGet rs k v))
termination_by sizeOf ds

end

/-! ## Well-formedness and compatibility predicates

`keysUnique`/`pyWF` state the Python dict invariant (unique keys, at every
nesting level) that the association-list model cannot enforce by
construction.  `compatible` states the shape condition under which
`merge_results` cannot raise: wherever the defaults hold a dict, a truthy
raw value at the same key is itself a dict, recursively. -/

/-- All keys of one association-list level are distinct. -/
def keysUnique : List (String × PyVal) → Bool
  | [] => true
  | (k, _) :: rest => !hasKey rest k && keysUnique rest

mutual

/-- Every dict nested anywhere inside the value has unique keys. -/
def pyWF : PyVal → Bool
  | .none => true
  | .int _ => true
  | .str _ => true
  | .list xs => pyWFList xs
  | .dict es => keysUnique es && pyWFDict es

def pyWFList : List PyVal → Bool
  | [] => true
  | v :: t => pyWF v && pyWFList t

def pyWFDict : List (String × PyVal) → Bool
  | [] => true
  | (_, v) :: t => pyWF v && pyWFDict t

end

mutual

/-- Holds when `r` and `d` are both dicts, and wherever `d` holds a dict value whose
key has a truthy value in `r`, that raw value is itself a dict, compatible
with the default, recursively. -/
def compatible (r d : PyVal) : Bool :=
  match d with
  | .dict ds =>
      match r with
      | .dict rs => compatList rs ds
      | _ => false
  | _ => false
termination_by sizeOf d

def compatList (rs ds : List (String × PyVal)) : Bool :=
  match ds with
  | [] => true
  | (k, v) :: rest =>
      (match v with
       | .dict dv =>
           !truthy (dictGet rs k (.dict [])) ||
             compatible (dictGet rs k (.dict [])) (.dict dv)
       | _ => true) && compatList rs rest
termination_by sizeOf ds

end

/-! ## The API response wrapper and the query service -/

/-- The observable part of a `SailthruResponse`: the success predicate
`is_ok()`, the error accessor (`get_error().message` / `.code`) and the
parsed payload `.json`. -/
structure SailthruResponse where
  is_ok : Bool
  errorMessage : String
  errorCode : Int
  json : PyVal

/-- Embedding of `DiveSailthruClient.raise_exception_if_error` (client.py
lines 108-116): raises `SailthruApiError("%s (%s)" % (message, code))` when
the response is not ok. -/
def raise_exception_if_error (response : SailthruResponse) : Except PyErr Unit :=
  if !response.is_ok then
    throw (.sailthruApiError
      (response.errorMessage ++ " (" ++ toString response.errorCode ++ ")"))
  else pure ()

/-- The bindings of `DiveSailthruClientSafe._user_dict` (client.py lines
337-353). -/
def user_dict_entries : List (String × PyVal) :=
  [("keys", .dict [("sid", .str ""), ("cookie", .str ""), ("email", .str "")]),
   ("activity", .str ""),
   ("vars", .dict []),
   ("lists", .dict []),
   ("engagement", .str ""),
   ("optout_email", .str "")]

/-- Embedding of `DiveSailthruClientSafe._user_dict` (client.py lines 337-353): the
default shape for `get_user` results. -/
def user_dict : PyVal := .dict user_dict_entries

/-- Embedding of `DiveSailthruClientSafe._create_response` (client.py lines
358-381): raise on a failed response, hand back the defaults verbatim when
the body is falsy, otherwise normalize the body with `merge_results`. -/
def create_response (base_response : SailthruResponse) (defaults : PyVal) :
    Except PyErr SailthruResponse :=
  if !base_response.is_ok then
    throw (.sailthruApiError
      (base_response.errorMessage ++ " (" ++ toString base_response.errorCode ++ ")"))
  else if !truthy base_response.json then
    pure { base_response with json := defaults }
  else do
    let new_json ← merge_results base_response.json defaults
    pure { base_response with json := new_json }

/-- Embedding of `DiveSailthruClientSafe.get_user` (client.py lines 383-390).
The vendor call `super().get_user(idvalue, options)` is the abstract
collaborator; its response is the argument. -/
def get_user (base_response : SailthruResponse) : Except PyErr SailthruResponse :=
  create_response base_response user_dict

/-- The per-campaign body of the loop in `get_campaigns_in_range`
(client.py lines 183-189): attach `dive_email_type`, then `dive_brand`
(computed on the record that already carries the first new field, as the
mutation order dictates), then re-encode `c['subject']` — a plain
subscription that raises `KeyError` when the key is missing. -/
def processCampaign (c : PyVal) : Except PyErr PyVal := do
  let t ← inferDiveEmailType c
  let c1 ← pySetItem c "dive_email_type" (.str t)
  let b ← inferDiveBrand c1
  let c2 ← pySetItem c1 "dive_brand" b
  let subj ← pyEncode (← pyGetItem c2 "subject")
  pySetItem c2 "subject" subj

def PAGE_SIZE_IN_DAYS : Int := 30

/-- Computes `page_end_date = page_start_date + timedelta(days=30)`, clipped:
`if page_end_date > end_date: page_end_date = end_date` (client.py lines
165-168).  Dates are modelled as integer day numbers. -/
def clipEnd (page_start end_date : Int) : Int :=
  if page_start + PAGE_SIZE_IN_DAYS > end_date then end_date
  else page_start + PAGE_SIZE_IN_DAYS

/-- The date windows the `while page_start_date < end_date` loop of
`get_campaigns_in_range` issues one API request for, in order. -/
def windows (start_date end_date : Int) : List (Int × Int) :=
  if start_date < end_date then
    (start_date, clipEnd start_date end_date) ::
      windows (clipEnd start_date end_date) end_date
  else []
termination_by (end_date - start_date).toNat
decreasing_by
  simp_wf
  simp only [clipEnd, PAGE_SIZE_IN_DAYS]
  split <;> omega

/-- The `for c in reversed(...)` loop of `get_campaigns_in_range`: process
each campaign in order, stopping at the first raised exception. -/
def processList : List PyVal → Except PyErr (List PyVal)
  | [] => pure []
  | c :: rest => do
      let p ← processCampaign c
      let tail ← processList rest
      pure (p :: tail)

/-- One iteration of the window loop of `get_campaigns_in_range` (client.py
lines 171-189): call the API for the window, raise on a failed response,
read `data.get('blasts', [])`, reverse it, and process each campaign in
order.  `api a b` stands for `self.api_get('blast', ...)` with
`status=sent`, the window bounds `a`/`b` as `start_date`/`end_date`, and
the optional fixed list filter folded into the abstract collaborator. -/
def processWindow (api : Int → Int → SailthruResponse) (w : Int × Int) :
    Except PyErr (List PyVal) := do
  let result := api w.1 w.2
  raise_exception_if_error result
  let data := result.json
  let blastsVal ← pyGet data "blasts" (.list [])
  let blasts ← match blastsVal with
    | .list xs => pure xs
    | _ => throw .typeError
  processList blasts.reverse

/-- Embedding of `DiveSailthruClient.get_campaigns_in_range` (client.py
lines 118-192): the `while` loop as recursion over the shrinking date
range, each iteration contributing its processed window page before the
later pages. -/
def get_campaigns_in_range (api : Int → Int → SailthruResponse)
    (start_date end_date : Int) : Except PyErr (List PyVal) :=
  if start_date < end_date then do
    let page ← processWindow api (start_date, clipEnd start_date end_date)
    let rest ← get_campaigns_in_range api (clipEnd start_date end_date) end_date
    pure (page ++ rest)
  else pure []
termination_by (end_date - start_date).toNat
decreasing_by
  simp_wf
  simp only [clipEnd, PAGE_SIZE_IN_DAYS]
  split <;> omega

/-- Sequential processing of a list of windows; `get_campaigns_in_range`
is proved equal to `runWindows api (windows s e)`. -/
def runWindows (api : Int → Int → SailthruResponse) :
    List (Int × Int) → Except PyErr (List PyVal)
  | [] => pure []
  | w :: ws => do
      let page ← processWindow api w
      let rest ← runWindows api ws
      pure (page ++ rest)

/-- Spec-side accessor: the `blasts` list a window response carries
(`data.get('blasts', [])` when it is a list). -/
def getBlasts (r : SailthruResponse) : Option (List PyVal) :=
  match r.json with
  | .dict es =>
      match dictGet es "blasts" (.list []) with
      | .list xs => some xs
      | _ => Option.none
  | _ => Option.none

/-- The `new_val` computation for one defaults entry in the first loop of
`merge_results` (client.py lines 22-31). -/
def mergeEntry (rs : List (String × PyVal)) (k : String) (v : PyVal) :
    Except PyErr PyVal :=
  match v with
  | .dict dv =>
      let old_val := dictGet rs k (.dict [])
      if truthy old_val && truthy (.dict dv) then merge_results old_val (.dict dv)
      else if truthy old_val then pure old_val
      else pure (.dict dv)
  | _ => pure (dictGet rs k v)

/-- Accumulator-free form of the first loop of `merge_results`: the list of
`(k, new_val)` bindings in defaults order. -/
def mergeEntries (rs : List (String × PyVal)) :
    List (String × PyVal) → Except PyErr (List (String × PyVal))
  | [] => pure []
  | (k, v) :: rest => do
      let nv ← mergeEntry rs k v
      let tail ← mergeEntries rs rest
      pure ((k, nv) :: tail)

/-- The classifier cascade of `_infer_dive_email_type`, §4.1 of the spec, as
a pure function of the four (well-typed) campaign fields; proved equal to
the monadic embedding on such records. -/
def emailTypeSpec (ls : List PyVal) (ns ss subj : String) : String :=
  if strElem ls "Blast" || strContains ns "-blast-" then DiveEmailTypes.Blast
  else if strElem ls "Welcome Series" then DiveEmailTypes.WelcomeSeries
  else if strEndsWith ss "Weekender" ||
      strStartsWith ns "Newsletter Weekly Roundup" then DiveEmailTypes.Weekender
  else if strElem ls "newsletter" || strStartsWith ns "Issue: " then
    DiveEmailTypes.Newsletter
  else if strEndsWith (strToLower ss) "blast list" then DiveEmailTypes.Blast
  else if strStartsWith subj "BREAKING" then DiveEmailTypes.BreakingNews
  else DiveEmailTypes.Unknown

/-- The brand cascade of `_infer_dive_brand`, §4.1 of the spec, as a pure
function of the (well-typed) list name. -/
def brandSpec (ss : String) : PyVal :=
  if strEndsWith (strToLower ss) "blast list" then .str (stripBlastListSuffix ss)
  else if strEndsWith (strToLower ss) "weekender" then .str (stripWeekenderSuffix ss)
  else if strEndsWith ss " Dive" || matchesAlphaDive ss then .str ss
  else .none

/-! ## Concrete test fixtures -/

/-- A campaign record carrying only a subject. -/
def testCampaignA : PyVal := .dict [("subject", .str "A")]

def testCampaignB : PyVal := .dict [("subject", .str "B")]

/-- A collaborator whose first window returns two campaigns (newest first,
as the vendor does) and whose later windows are empty. -/
def apiAsc : Int → Int → SailthruResponse := fun a _ =>
  if a = 0 then
    { is_ok := true, errorMessage := "", errorCode := 0,
      json := .dict [("blasts", .list [testCampaignB, testCampaignA])] }
  else
    { is_ok := true, errorMessage := "", errorCode := 0,
      json := .dict [("blasts", .list [])] }

/-- A collaborator whose first window succeeds with no blasts and whose
later windows fail with the vendor's invalid-key error. -/
def apiInvalidKey : Int → Int → SailthruResponse := fun a _ =>
  if a = 0 then
    { is_ok := true, errorMessage := "", errorCode := 0,
      json := .dict [("blasts", .list [])] }
  else
    { is_ok := false, errorMessage := "Invalid API key", errorCode := 9,
      json := .dict [] }

/-- A collaborator returning one campaign record with no `subject` key. -/
def apiMissingSubject : Int → Int → SailthruResponse := fun _ _ =>
  { is_ok := true, errorMessage := "", errorCode := 0,
    json := .dict [("blasts", .list [.dict [("name", .str "x")]])] }

/-- A successful vendor `get_user` response whose `vars` is null. -/
def respNullVars : SailthruResponse :=
  { is_ok := true, errorMessage := "", errorCode := 0,
    json := .dict [("vars", .none), ("id", .int 3)] }

/-! # Theorems -/

/-! ## `Except` monad computation lemmas -/

@[simp] theorem exceptBindOk {α β : Type} (a : α) (f : α → Except PyErr β) :
    (Except.ok a : Except PyErr α) >>= f = f a := rfl

@[simp] theorem exceptBindErr {α β : Type} (e : PyErr) (f : α → Except PyErr β) :
    (Except.error e : Except PyErr α) >>= f = Except.error e := rfl

@[simp] theorem exceptMapOk {α β : Type} (g : α → β) (a : α) :
    Except.map g (Except.ok a : Except PyErr α) = Except.ok (g a) := rfl

@[simp] theorem exceptMapErr {α β : Type} (g : α → β) (e : PyErr) :
    Except.map g (Except.error e : Except PyErr α) = Except.error e := rfl

@[simp] theorem exceptPureEq {α : Type} (a : α) :
    (pure a : Except PyErr α) = Except.ok a := rfl

@[simp] theorem exceptThrowEq {α : Type} (e : PyErr) :
    (throw e : Except PyErr α) = Except.error e := rfl

/-! ## Association-list dictionary lemmas -/

theorem hasKey_iff_exists {es : List (String × PyVal)} {k : String} :
    hasKey es k = true ↔ ∃ v, (k, v) ∈ es := by
  induction es with
  | nil => simp [hasKey]
  | cons e rest ih =>
      obtain ⟨k', v'⟩ := e
      simp only [hasKey, Bool.or_eq_true, decide_eq_true_eq, ih, List.mem_cons]
      constructor
      · rintro (rfl | ⟨v, hv⟩)
        · exact ⟨v', Or.inl rfl⟩
        · exact ⟨v, Or.inr hv⟩
      · rintro ⟨v, h | hv⟩
        · exact Or.inl (by cases h; rfl)
        · exact Or.inr ⟨v, hv⟩

theorem dictGet_eq_of_mem {es : List (String × PyVal)} {k : String} {v : PyVal}
    (hu : keysUnique es = true) (hm : (k, v) ∈ es) (d : PyVal) :
    dictGet es k d = v := by
  induction es with
  | nil => cases hm
  | cons e rest ih =>
      obtain ⟨k', v'⟩ := e
      simp only [keysUnique, Bool.and_eq_true, Bool.not_eq_true'] at hu
      rcases List.mem_cons.mp hm with h | h
      · cases h
        simp [dictGet]
      · have hk : k' ≠ k := by
          rintro rfl
          exact absurd (hasKey_iff_exists.mpr ⟨v, h⟩) (by simp [hu.1])
        simp only [dictGet, if_neg hk]
        exact ih hu.2 h

theorem hasKey_dictSet {es : List (String × PyVal)} {k k' : String} {v : PyVal} :
    hasKey (dictSet es k v) k' = (k = k' || hasKey es k') := by
  induction es with
  | nil => simp [dictSet, hasKey]
  | cons e rest ih =>
      obtain ⟨k0, v0⟩ := e
      by_cases h : k0 = k
      · subst h
        simp only [dictSet, if_pos rfl, hasKey]
        by_cases h' : k0 = k' <;> simp [h']
      · simp only [dictSet, if_neg h, hasKey, ih]
        by_cases h' : k0 = k' <;> by_cases h'' : k = k' <;> simp [h', h'']

theorem dictSet_eq_append {es : List (String × PyVal)} {k : String} (v : PyVal)
    (h : hasKey es k = false) : dictSet es k v = es ++ [(k, v)] := by
  induction es with
  | nil => simp [dictSet]
  | cons e rest ih =>
      obtain ⟨k0, v0⟩ := e
      simp only [hasKey, Bool.or_eq_false_iff, decide_eq_false_iff_not] at h
      simp only [dictSet, if_neg h.1, List.cons_append, List.cons.injEq, true_and]
      exact ih h.2

theorem dictGet_dictSet_ne {es : List (String × PyVal)} {k k' : String}
    {v d : PyVal} (h : k ≠ k') : dictGet (dictSet es k v) k' d = dictGet es k' d := by
  induction es with
  | nil => simp [dictSet, dictGet, h]
  | cons e rest ih =>
      obtain ⟨k0, v0⟩ := e
      by_cases h0 : k0 = k
      · subst h0
        simp [dictSet, dictGet, h]
      · simp only [dictSet, if_neg h0, dictGet]
        by_cases h1 : k0 = k' <;> simp [h1, ih]

theorem dictGet_append_of_hasKey {es fs : List (String × PyVal)} {k : String}
    {d : PyVal} (h : hasKey es k = true) :
    dictGet (es ++ fs) k d = dictGet es k d := by
  induction es with
  | nil => simp [hasKey] at h
  | cons e rest ih =>
      obtain ⟨k0, v0⟩ := e
      simp only [hasKey, Bool.or_eq_true, decide_eq_true_eq] at h
      by_cases h0 : k0 = k
      · simp [dictGet, h0]
      · simp only [dictGet, List.cons_append, if_neg h0]
        exact ih (h.resolve_left h0)

theorem dictGet_append_of_not_hasKey {es fs : List (String × PyVal)} {k : String}
    {d : PyVal} (h : hasKey es k = false) :
    dictGet (es ++ fs) k d = dictGet fs k d := by
  induction es with
  | nil => simp
  | cons e rest ih =>
      obtain ⟨k0, v0⟩ := e
      simp only [hasKey, Bool.or_eq_false_iff, decide_eq_false_iff_not] at h
      simp only [List.cons_append, dictGet, if_neg h.1]
      exact ih h.2

theorem hasKey_append {es fs : List (String × PyVal)} {k : String} :
    hasKey (es ++ fs) k = (hasKey es k || hasKey fs k) := by
  induction es with
  | nil => simp [hasKey]
  | cons e rest ih =>
      obtain ⟨k0, v0⟩ := e
      simp only [List.cons_append, hasKey, List.append_eq, ih, Bool.or_assoc]

/-! ## The second loop of `merge_results` -/

theorem dictGet_secondLoop_of_hasKey {k : String} {d : PyVal} :
    ∀ {rs results : List (String × PyVal)}, hasKey results k = true →
      dictGet (secondLoop rs results) k d = dictGet results k d := by
  intro rs
  induction rs with
  | nil => intro results _; rfl
  | cons e rest ih =>
      obtain ⟨k0, v0⟩ := e
      intro results h
      by_cases h0 : hasKey results k0 = true
      · simp only [secondLoop, if_pos h0]
        exact ih h
      · simp only [secondLoop, if_neg h0]
        have hne : k0 ≠ k := by rintro rfl; exact h0 h
        have h' : hasKey (dictSet results k0 v0) k = true := by
          simp [hasKey_dictSet, h]
        rw [ih h', dictGet_dictSet_ne hne]

theorem secondLoop_eq_self :
    ∀ {rs results : List (String × PyVal)},
      (∀ k v, (k, v) ∈ rs → hasKey results k = true) →
      secondLoop rs results = results := by
  intro rs
  induction rs with
  | nil => intro results _; rfl
  | cons e rest ih =>
      obtain ⟨k0, v0⟩ := e
      intro results h
      have h0 : hasKey results k0 = true := h k0 v0 (List.mem_cons_self _ _)
      simp only [secondLoop, if_pos h0]
      exact ih (fun k v hm => h k v (List.mem_cons_of_mem _ hm))

/-! ## The first loop of `merge_results` as `mergeEntries` -/

theorem mergeLoop_cons_dict {rs acc rest : List (String × PyVal)} {k : String}
    {dv : List (String × PyVal)} :
    mergeLoop rs ((k, .dict dv) :: rest) acc =
      (mergeEntry rs k (.dict dv)).bind
        (fun nv => mergeLoop rs rest (dictSet acc k nv)) := by
  simp only [mergeLoop, mergeEntry]
  by_cases h1 : (truthy (dictGet rs k (.dict [])) && truthy (.dict dv)) = true
  · simp only [if_pos h1]; rfl
  · simp only [if_neg h1]
    by_cases h2 : truthy (dictGet rs k (.dict [])) = true
    · simp only [if_pos h2]; rfl
    · simp only [if_neg h2]; rfl

theorem mergeLoop_cons_of_ne_dict {rs acc rest : List (String × PyVal)}
    {k : String} {v : PyVal} (h : ∀ dv, v ≠ .dict dv) :
    mergeLoop rs ((k, v) :: rest) acc =
      mergeLoop rs rest (dictSet acc k (dictGet rs k v)) := by
  cases v with
  | dict dv => exact absurd rfl (h dv)
  | none => simp [mergeLoop]
  | int n => simp [mergeLoop]
  | str s => simp [mergeLoop]
  | list xs => simp [mergeLoop]

theorem mergeEntry_of_ne_dict {rs : List (String × PyVal)} {k : String}
    {v : PyVal} (h : ∀ dv, v ≠ .dict dv) :
    mergeEntry rs k v = pure (dictGet rs k v) := by
  cases v with
  | dict dv => exact absurd rfl (h dv)
  | none => rfl
  | int n => rfl
  | str s => rfl
  | list xs => rfl

theorem mergeLoop_eq_mergeEntries {rs : List (String × PyVal)} :
    ∀ {ds acc : List (String × PyVal)}, keysUnique ds = true →
      (∀ k v, (k, v) ∈ ds → hasKey acc k = false) →
      mergeLoop rs ds acc = (mergeEntries rs ds).map (fun l => acc ++ l) := by
  intro ds
  induction ds with
  | nil => intro acc _ _; simp [mergeLoop, mergeEntries, Except.map, pure, Except.pure]
  | cons e rest ih =>
      obtain ⟨k, v⟩ := e
      intro acc hu hdisj
      simp only [keysUnique, Bool.and_eq_true, Bool.not_eq_true'] at hu
      have hk : hasKey acc k = false := hdisj k v (List.mem_cons_self _ _)
      have hstep : ∀ nv, dictSet acc k nv = acc ++ [(k, nv)] :=
        fun nv => dictSet_eq_append nv hk
      have hdisj' : ∀ nv k' v', (k', v') ∈ rest →
          hasKey (acc ++ [(k, nv)]) k' = false := by
        intro nv k' v' hm
        have h1 : hasKey acc k' = false := hdisj k' v' (List.mem_cons_of_mem _ hm)
        have h2 : k ≠ k' := by
          rintro rfl
          exact absurd (hasKey_iff_exists.mpr ⟨v', hm⟩) (by simp [hu.1])
        simp [hasKey_append, h1, hasKey, h2]
      have key : ∀ nv, mergeLoop rs rest (dictSet acc k nv) =
          (mergeEntries rs rest).map (fun l => acc ++ ((k, nv) :: l)) := by
        intro nv
        rw [hstep nv, ih hu.2 (hdisj' nv)]
        cases h : mergeEntries rs rest with
        | error e => simp [Except.map]
        | ok l => simp [Except.map]
      by_cases hd : ∃ dv, v = .dict dv
      · obtain ⟨dv, rfl⟩ := hd
        rw [mergeLoop_cons_dict]
        cases h : mergeEntry rs k (.dict dv) with
        | error e => simp [mergeEntries, h, Except.bind]
        | ok nv =>
            simp only [Except.bind, key nv, mergeEntries, h]
            cases h2 : mergeEntries rs rest with
            | error e => simp [h2]
            | ok l => simp [h2]
      · push_neg at hd
        rw [mergeLoop_cons_of_ne_dict hd, key (dictGet rs k v),
          mergeEntries, mergeEntry_of_ne_dict hd]
        cases h2 : mergeEntries rs rest with
        | error e => simp [h2]
        | ok l => simp [h2]

theorem hasKey_iff_mem_keys {es : List (String × PyVal)} {k : String} :
    hasKey es k = true ↔ k ∈ es.map Prod.fst := by
  rw [hasKey_iff_exists]
  constructor
  · rintro ⟨v, hv⟩; exact List.mem_map.mpr ⟨(k, v), hv, rfl⟩
  · intro h
    obtain ⟨⟨k', v⟩, hm, hk⟩ := List.mem_map.mp h
    cases hk
    exact ⟨v, hm⟩

theorem keysUnique_iff_nodup {es : List (String × PyVal)} :
    keysUnique es = true ↔ (es.map Prod.fst).Nodup := by
  induction es with
  | nil => simp [keysUnique]
  | cons e rest ih =>
      obtain ⟨k, v⟩ := e
      simp only [keysUnique, Bool.and_eq_true, Bool.not_eq_true', ih,
        List.map_cons, List.nodup_cons]
      constructor
      · rintro ⟨h1, h2⟩
        exact ⟨fun hm => by simp [hasKey_iff_mem_keys.mpr hm] at h1, h2⟩
      · rintro ⟨h1, h2⟩
        refine ⟨?_, h2⟩
        cases h : hasKey rest k
        · rfl
        · exact absurd (hasKey_iff_mem_keys.mp h) h1

theorem mergeEntries_ok_forall₂ {rs : List (String × PyVal)} :
    ∀ {ds l : List (String × PyVal)}, mergeEntries rs ds = .ok l →
      List.Forall₂ (fun d o => d.1 = o.1 ∧ mergeEntry rs d.1 d.2 = .ok o.2) ds l := by
  intro ds
  induction ds with
  | nil =>
      intro l h
      simp only [mergeEntries, exceptPureEq, Except.ok.injEq] at h
      subst h
      exact List.Forall₂.nil
  | cons e rest ih =>
      obtain ⟨k, v⟩ := e
      intro l h
      simp only [mergeEntries] at h
      cases h1 : mergeEntry rs k v with
      | error e' => rw [h1] at h; simp at h
      | ok nv =>
          rw [h1] at h
          cases h2 : mergeEntries rs rest with
          | error e' => rw [h2] at h; simp at h
          | ok tail =>
              rw [h2] at h
              simp only [exceptBindOk, exceptPureEq, Except.ok.injEq] at h
              subst h
              exact List.Forall₂.cons ⟨rfl, h1⟩ (ih h2)

theorem forall₂_fst_eq {R : (String × PyVal) → (String × PyVal) → Prop}
    (hR : ∀ a b, R a b → a.1 = b.1) :
    ∀ {ds l : List (String × PyVal)}, List.Forall₂ R ds l →
      l.map Prod.fst = ds.map Prod.fst := by
  intro ds l h
  induction h with
  | nil => rfl
  | cons hab _ ih => simp only [List.map_cons, ih, hR _ _ hab]

theorem forall₂_exists_of_mem_left {α β : Type} {R : α → β → Prop}
    {ds : List α} {l : List β} (h : List.Forall₂ R ds l) {a : α} (hm : a ∈ ds) :
    ∃ b ∈ l, R a b := by
  induction h with
  | nil => cases hm
  | cons hab htail ih =>
      rcases List.mem_cons.mp hm with rfl | hm'
      · exact ⟨_, List.mem_cons_self _ _, hab⟩
      · obtain ⟨b, hb, hR⟩ := ih hm'
        exact ⟨b, List.mem_cons_of_mem _ hb, hR⟩

/-- The normalizer on two dicts, in closed form: compute all `new_val`s in
defaults order, then append the uncovered raw bindings via the second loop. -/
theorem merge_results_eq_mergeEntries {rs ds : List (String × PyVal)}
    (hu : keysUnique ds = true) :
    merge_results (.dict rs) (.dict ds) =
      (mergeEntries rs ds).map (fun l => .dict (secondLoop rs l)) := by
  simp only [merge_results]
  have h0 : ∀ (k : String) (v : PyVal), (k, v) ∈ ds →
      hasKey ([] : List (String × PyVal)) k = false := fun _ _ _ => rfl
  rw [mergeLoop_eq_mergeEntries hu h0]
  cases h : mergeEntries rs ds with
  | error e => simp
  | ok l => simp

/-- Looking up a defaults-covered key in a successful merge yields exactly
the `new_val` the first loop computed for it. -/
theorem merge_lookup {rs ds os : List (String × PyVal)} {k : String} {v : PyVal}
    (hu : keysUnique ds = true) (hm : (k, v) ∈ ds)
    (h : merge_results (.dict rs) (.dict ds) = .ok (.dict os)) (dflt : PyVal) :
    ∃ nv, mergeEntry rs k v = .ok nv ∧ dictGet os k dflt = nv := by
  rw [merge_results_eq_mergeEntries hu] at h
  cases h2 : mergeEntries rs ds with
  | error e => rw [h2] at h; simp at h
  | ok l =>
      rw [h2] at h
      simp only [exceptMapOk, Except.ok.injEq, PyVal.dict.injEq] at h
      have hf := mergeEntries_ok_forall₂ h2
      have hkeys : l.map Prod.fst = ds.map Prod.fst :=
        forall₂_fst_eq (fun a b hab => hab.1) hf
      have hul : keysUnique l = true := by
        rw [keysUnique_iff_nodup, hkeys, ← keysUnique_iff_nodup]
        exact hu
      obtain ⟨⟨k', nv⟩, hbl, hfst, hentry⟩ := forall₂_exists_of_mem_left hf hm
      cases hfst
      have hkl : hasKey l k = true :=
        hasKey_iff_exists.mpr ⟨nv, hbl⟩
      refine ⟨nv, hentry, ?_⟩
      rw [← h, dictGet_secondLoop_of_hasKey hkl]
      exact dictGet_eq_of_mem hul hbl dflt

/-! ## Size and well-formedness bookkeeping -/

theorem sizeOf_val_lt_of_mem {es : List (String × PyVal)} {k : String} {v : PyVal}
    (h : (k, v) ∈ es) : sizeOf v < sizeOf es := by
  induction es with
  | nil => cases h
  | cons e rest ih =>
      rcases List.mem_cons.mp h with h1 | h1
      · cases h1; simp; omega
      · have := ih h1
        simp
        omega

theorem pyWFDict_mem {es : List (String × PyVal)} {k : String} {v : PyVal}
    (hwf : pyWFDict es = true) (h : (k, v) ∈ es) : pyWF v = true := by
  induction es with
  | nil => cases h
  | cons e rest ih =>
      obtain ⟨k0, v0⟩ := e
      simp only [pyWFDict, Bool.and_eq_true] at hwf
      rcases List.mem_cons.mp h with h1 | h1
      · cases h1; exact hwf.1
      · exact ih hwf.2 h1

theorem pyWF_dict_parts {es : List (String × PyVal)} (h : pyWF (.dict es) = true) :
    keysUnique es = true ∧ pyWFDict es = true := by
  simpa only [pyWF, Bool.and_eq_true] using h

/-! ## Idempotence and unit laws of the normalizer -/

theorem mergeEntries_of_all_ok {rs : List (String × PyVal)} :
    ∀ {ds : List (String × PyVal)},
      (∀ k v, (k, v) ∈ ds → mergeEntry rs k v = .ok v) →
      mergeEntries rs ds = .ok ds := by
  intro ds
  induction ds with
  | nil => intro _; rfl
  | cons e rest ih =>
      obtain ⟨k, v⟩ := e
      intro h
      simp only [mergeEntries, h k v (List.mem_cons_self _ _),
        ih (fun k' v' hm => h k' v' (List.mem_cons_of_mem _ hm)),
        exceptBindOk, exceptPureEq]

theorem merge_results_self_aux :
    ∀ (n : Nat) (rs : List (String × PyVal)), sizeOf rs ≤ n →
      pyWF (.dict rs) = true →
      merge_results (.dict rs) (.dict rs) = .ok (.dict rs) := by
  intro n
  induction n using Nat.strong_induction_on with
  | _ n IH =>
      intro rs hsize hwf
      obtain ⟨hu, hwfd⟩ := pyWF_dict_parts hwf
      have hentry : ∀ k v, (k, v) ∈ rs → mergeEntry rs k v = .ok v := by
        intro k v hm
        have hget : ∀ d, dictGet rs k d = v := fun d => dictGet_eq_of_mem hu hm d
        cases v with
        | dict dv =>
            simp only [mergeEntry, hget]
            cases hdv : truthy (.dict dv) with
            | false => simp [hdv]
            | true =>
                simp only [hdv, Bool.and_self, if_pos]
                have hlt : sizeOf dv < n := by
                  have h1 := sizeOf_val_lt_of_mem hm
                  simp at h1
                  omega
                have hwfv : pyWF (.dict dv) = true := pyWFDict_mem hwfd hm
                exact IH (sizeOf dv) hlt dv le_rfl hwfv
        | none => simp [mergeEntry, hget]
        | int m => simp [mergeEntry, hget]
        | str s => simp [mergeEntry, hget]
        | list xs => simp [mergeEntry, hget]
      rw [merge_results_eq_mergeEntries hu, mergeEntries_of_all_ok hentry]
      simp only [exceptMapOk, Except.ok.injEq, PyVal.dict.injEq]
      exact secondLoop_eq_self
        (fun k v hm => hasKey_iff_exists.mpr ⟨v, hm⟩)

/-- Merging a well-formed dict with itself as the defaults is the identity. -/
theorem merge_results_self {rs : List (String × PyVal)}
    (hwf : pyWF (.dict rs) = true) :
    merge_results (.dict rs) (.dict rs) = .ok (.dict rs) :=
  merge_results_self_aux (sizeOf rs) rs le_rfl hwf

/-- Merging the empty raw dict with defaults yields exactly the defaults. -/
theorem merge_results_empty_left {ds : List (String × PyVal)}
    (hu : keysUnique ds = true) :
    merge_results (.dict []) (.dict ds) = .ok (.dict ds) := by
  have hentry : ∀ k v, (k, v) ∈ ds → mergeEntry ([] : List (String × PyVal)) k v = .ok v := by
    intro k v hm
    cases v with
    | dict dv => simp [mergeEntry, dictGet, truthy]
    | none => simp [mergeEntry, dictGet]
    | int m => simp [mergeEntry, dictGet]
    | str s => simp [mergeEntry, dictGet]
    | list xs => simp [mergeEntry, dictGet]
  rw [merge_results_eq_mergeEntries hu, mergeEntries_of_all_ok hentry]
  rfl

/-! ## Totality of the normalizer on compatible inputs -/

theorem merge_total_aux :
    ∀ (n : Nat) (r d : PyVal), sizeOf d ≤ n → compatible r d = true →
      ∃ o, merge_results r d = .ok o := by
  intro n
  induction n using Nat.strong_induction_on with
  | _ n IH =>
      intro r d hsize hc
      cases d with
      | dict ds =>
          cases r with
          | dict rs =>
              have hcl : compatList rs ds = true := by
                simpa only [compatible] using hc
              have hloop : ∀ (ds' : List (String × PyVal)),
                  sizeOf ds' ≤ sizeOf ds → compatList rs ds' = true →
                  ∀ acc, ∃ l, mergeLoop rs ds' acc = .ok l := by
                intro ds'
                induction ds' with
                | nil => intro _ _ acc; exact ⟨acc, by simp [mergeLoop]⟩
                | cons e rest ih =>
                    obtain ⟨k, v⟩ := e
                    intro hs hcl' acc
                    have hrest : sizeOf rest ≤ sizeOf ds := by
                      simp only [List.cons.sizeOf_spec, Prod.mk.sizeOf_spec] at hs
                      omega
                    cases v with
                    | dict dv =>
                        simp only [compatList, Bool.and_eq_true] at hcl'
                        have hnv : ∃ nv, mergeEntry rs k (.dict dv) = .ok nv := by
                          simp only [mergeEntry]
                          cases hold : truthy (dictGet rs k (.dict [])) with
                          | false => simp [hold]
                          | true =>
                              cases hdv : truthy (.dict dv) with
                              | false => simp [hold, hdv]
                              | true =>
                                  simp only [hold, hdv, Bool.and_self, if_pos]
                                  have hcomp :
                                      compatible (dictGet rs k (.dict []))
                                        (.dict dv) = true := by
                                    rcases hcl' with ⟨h1, _⟩
                                    rw [hold] at h1
                                    simpa using h1
                                  have hlt : sizeOf (PyVal.dict dv) < n := by
                                    simp only [List.cons.sizeOf_spec,
                                      Prod.mk.sizeOf_spec, PyVal.dict.sizeOf_spec]
                                      at hs hsize ⊢
                                    omega
                                  exact IH (sizeOf (PyVal.dict dv)) hlt _ _
                                    le_rfl hcomp
                        obtain ⟨nv, hnv⟩ := hnv
                        rw [mergeLoop_cons_dict, hnv]
                        simpa using ih hrest hcl'.2 (dictSet acc k nv)
                    | none =>
                        simp only [compatList, Bool.true_and] at hcl'
                        rw [mergeLoop_cons_of_ne_dict (by intro dv h; cases h)]
                        exact ih hrest hcl' _
                    | int m =>
                        simp only [compatList, Bool.true_and] at hcl'
                        rw [mergeLoop_cons_of_ne_dict (by intro dv h; cases h)]
                        exact ih hrest hcl' _
                    | str s =>
                        simp only [compatList, Bool.true_and] at hcl'
                        rw [mergeLoop_cons_of_ne_dict (by intro dv h; cases h)]
                        exact ih hrest hcl' _
                    | list xs =>
                        simp only [compatList, Bool.true_and] at hcl'
                        rw [mergeLoop_cons_of_ne_dict (by intro dv h; cases h)]
                        exact ih hrest hcl' _
              obtain ⟨l, hl⟩ := hloop ds le_rfl hcl []
              exact ⟨.dict (secondLoop rs l), by simp [merge_results, hl]⟩
          | none => simp [compatible] at hc
          | int m => simp [compatible] at hc
          | str s => simp [compatible] at hc
          | list xs => simp [compatible] at hc
      | none => simp [compatible] at hc
      | int m => simp [compatible] at hc
      | str s => simp [compatible] at hc
      | list xs => simp [compatible] at hc

/-- Totality: `merge_results` cannot raise on compatible inputs. -/
theorem merge_total {r d : PyVal} (hc : compatible r d = true) :
    ∃ o, merge_results r d = .ok o :=
  merge_total_aux (sizeOf d) r d le_rfl hc

/-! ## Classifier evaluation on well-typed records -/

theorem inferDiveEmailType_eq_spec {cs : List (String × PyVal)}
    {ls : List PyVal} {ns ss subj : String}
    (hlab : dictGet cs "labels" (.list []) = .list ls)
    (hname : dictGet cs "name" (.str "") = .str ns)
    (hlist : dictGet cs "list" (.str "") = .str ss)
    (hsub : dictGet cs "subject" (.str "") = .str subj) :
    inferDiveEmailType (.dict cs) = .ok (emailTypeSpec ls ns ss subj) := by
  simp only [inferDiveEmailType, pyGet, hlab, hname, hlist, hsub, pyEncode,
    pyIn, pyOr, pyEndsWith, pyStartsWith, pyLower, emailTypeSpec,
    exceptBindOk, exceptPureEq]
  cases h1 : strElem ls "Blast" <;>
    cases h2 : strContains ns "-blast-" <;>
    cases h3 : strElem ls "Welcome Series" <;>
    cases h4 : strEndsWith ss "Weekender" <;>
    cases h5 : strStartsWith ns "Newsletter Weekly Roundup" <;>
    cases h6 : strElem ls "newsletter" <;>
    cases h7 : strStartsWith ns "Issue: " <;>
    cases h8 : strEndsWith (strToLower ss) "blast list" <;>
    cases h9 : strStartsWith subj "BREAKING" <;>
    simp

theorem inferDiveBrand_eq_spec {cs : List (String × PyVal)} {ss : String}
    (hlist : dictGet cs "list" (.str "") = .str ss) :
    inferDiveBrand (.dict cs) = .ok (brandSpec ss) := by
  simp only [inferDiveBrand, pyGet, hlist, brandSpec, exceptBindOk,
    exceptPureEq]
  cases h1 : strEndsWith (strToLower ss) "blast list" <;>
    cases h2 : strEndsWith (strToLower ss) "weekender" <;>
    cases h3 : (strEndsWith ss " Dive" || matchesAlphaDive ss) <;>
    simp

/-! ## Per-campaign processing -/

theorem dictGet_of_not_hasKey {es : List (String × PyVal)} {k : String}
    {d : PyVal} (h : hasKey es k = false) : dictGet es k d = d := by
  induction es with
  | nil => rfl
  | cons e rest ih =>
      obtain ⟨k0, v0⟩ := e
      simp only [hasKey, Bool.or_eq_false_iff, decide_eq_false_iff_not] at h
      simp only [dictGet, if_neg h.1]
      exact ih h.2

/-- A record with well-typed classifier fields but no `subject` key makes
the loop body raise `KeyError` at `c['subject']`, even though the
classifier itself read the missing subject with a default. -/
theorem processCampaign_keyError {cs : List (String × PyVal)}
    {ls : List PyVal} {ns ss : String}
    (hlab : dictGet cs "labels" (.list []) = .list ls)
    (hname : dictGet cs "name" (.str "") = .str ns)
    (hlist : dictGet cs "list" (.str "") = .str ss)
    (habs : hasKey cs "subject" = false) :
    processCampaign (.dict cs) = .error .keyError := by
  have hsub : dictGet cs "subject" (.str "") = .str "" := dictGet_of_not_hasKey habs
  have h1 := inferDiveEmailType_eq_spec hlab hname hlist hsub
  have hlist1 : dictGet (dictSet cs "dive_email_type"
      (.str (emailTypeSpec ls ns ss ""))) "list" (.str "") = .str ss := by
    rw [dictGet_dictSet_ne (by decide)]
    exact hlist
  have h2 := inferDiveBrand_eq_spec hlist1
  have habs2 : hasKey (dictSet (dictSet cs "dive_email_type"
      (.str (emailTypeSpec ls ns ss ""))) "dive_brand" (brandSpec ss))
      "subject" = false := by
    rw [hasKey_dictSet, hasKey_dictSet]
    simp [habs]
  simp only [processCampaign, h1, exceptBindOk, exceptPureEq, exceptThrowEq,
    pySetItem, h2, pyGetItem, habs2, Bool.false_eq_true, reduceIte,
    exceptBindErr]

theorem processList_ok_forall₂ :
    ∀ {l out : List PyVal}, processList l = .ok out →
      List.Forall₂ (fun c p => processCampaign c = .ok p) l out := by
  intro l
  induction l with
  | nil =>
      intro out h
      simp only [processList, exceptPureEq, Except.ok.injEq] at h
      subst h
      exact List.Forall₂.nil
  | cons c rest ih =>
      intro out h
      simp only [processList] at h
      cases h1 : processCampaign c with
      | error e => rw [h1] at h; simp at h
      | ok p =>
          rw [h1] at h
          cases h2 : processList rest with
          | error e => rw [h2] at h; simp at h
          | ok tail =>
              rw [h2] at h
              simp only [exceptBindOk, exceptPureEq, Except.ok.injEq] at h
              subst h
              exact List.Forall₂.cons h1 (ih h2)

theorem forall₂_exists_of_mem_right {α β : Type} {R : α → β → Prop}
    {ds : List α} {l : List β} (h : List.Forall₂ R ds l) {b : β} (hm : b ∈ l) :
    ∃ a ∈ ds, R a b := by
  induction h with
  | nil => cases hm
  | cons hab htail ih =>
      rcases List.mem_cons.mp hm with rfl | hm'
      · exact ⟨_, List.mem_cons_self _ _, hab⟩
      · obtain ⟨a, ha, hR⟩ := ih hm'
        exact ⟨a, List.mem_cons_of_mem _ ha, hR⟩

theorem forall₂_map_time {time : PyVal → Int}
    (htime : ∀ c p, processCampaign c = .ok p → time p = time c) :
    ∀ {l out : List PyVal},
      List.Forall₂ (fun c p => processCampaign c = .ok p) l out →
      out.map time = l.map time := by
  intro l out h
  induction h with
  | nil => rfl
  | cons hab _ ih =>
      simp only [List.map_cons, ih, htime _ _ hab]

/-! ## Window processing -/

theorem processWindow_fail {api : Int → Int → SailthruResponse} {w : Int × Int}
    (h : (api w.1 w.2).is_ok = false) :
    processWindow api w = .error (.sailthruApiError
      ((api w.1 w.2).errorMessage ++ " (" ++ toString (api w.1 w.2).errorCode ++ ")")) := by
  simp only [processWindow, raise_exception_if_error, h, Bool.not_false,
    if_pos]
  rfl

theorem processWindow_ok_inv {api : Int → Int → SailthruResponse}
    {w : Int × Int} {out : List PyVal} (h : processWindow api w = .ok out) :
    (api w.1 w.2).is_ok = true ∧
      ∃ xs, getBlasts (api w.1 w.2) = some xs ∧
        processList xs.reverse = .ok out := by
  by_cases hok : (api w.1 w.2).is_ok = true
  · refine ⟨hok, ?_⟩
    simp only [processWindow, raise_exception_if_error, hok, Bool.not_true,
      Bool.false_eq_true, reduceIte, exceptPureEq, exceptBindOk] at h
    cases hjson : (api w.1 w.2).json with
    | dict es =>
        rw [hjson] at h
        simp only [pyGet, exceptBindOk] at h
        cases hbl : dictGet es "blasts" (.list []) with
        | list xs =>
            rw [hbl] at h
            exact ⟨xs, by simp [getBlasts, hjson, hbl], h⟩
        | none => rw [hbl] at h; simp at h
        | int n => rw [hbl] at h; simp at h
        | str s => rw [hbl] at h; simp at h
        | dict es2 => rw [hbl] at h; simp at h
    | none => rw [hjson] at h; simp [pyGet] at h
    | int n => rw [hjson] at h; simp [pyGet] at h
    | str s => rw [hjson] at h; simp [pyGet] at h
    | list xs => rw [hjson] at h; simp [pyGet] at h
  · rw [processWindow_fail (by simpa using hok)] at h
    cases h

/-! ## The window list -/

theorem clipEnd_gt {s e : Int} (h : s < e) : s < clipEnd s e := by
  simp only [clipEnd, PAGE_SIZE_IN_DAYS]
  split <;> omega

theorem clipEnd_le (s e : Int) : clipEnd s e ≤ e := by
  simp only [clipEnd, PAGE_SIZE_IN_DAYS]
  split <;> omega

theorem windows_neg {s e : Int} (h : ¬ s < e) : windows s e = [] := by
  rw [windows, if_neg h]

theorem windows_pos {s e : Int} (h : s < e) :
    windows s e = (s, clipEnd s e) :: windows (clipEnd s e) e := by
  rw [windows, if_pos h]

theorem windows_facts :
    ∀ (n : Nat) (s e : Int), (e - s).toNat ≤ n →
      ∀ w ∈ windows s e, s ≤ w.1 ∧ w.1 < w.2 ∧ w.2 ≤ e ∧
        w.2 - w.1 ≤ PAGE_SIZE_IN_DAYS ∧
        (w.2 = w.1 + PAGE_SIZE_IN_DAYS ∨ w.2 = e) := by
  intro n
  induction n with
  | zero =>
      intro s e hn w hw
      have hns : ¬ s < e := by omega
      rw [windows_neg hns] at hw
      cases hw
  | succ m ih =>
      intro s e hn w hw
      by_cases h : s < e
      · rw [windows_pos h] at hw
        rcases List.mem_cons.mp hw with rfl | hw'
        · refine ⟨le_rfl, clipEnd_gt h, clipEnd_le s e, ?_, ?_⟩ <;>
            (simp only [clipEnd, PAGE_SIZE_IN_DAYS]; split <;> omega)
        · have hc1 := clipEnd_gt h
          have hc2 := clipEnd_le s e
          have := ih (clipEnd s e) e (by omega) w hw'
          exact ⟨by omega, this.2.1, this.2.2.1, this.2.2.2.1, this.2.2.2.2⟩
      · rw [windows_neg h] at hw
        cases hw

theorem windows_mem_facts {s e : Int} {w : Int × Int} (hw : w ∈ windows s e) :
    s ≤ w.1 ∧ w.1 < w.2 ∧ w.2 ≤ e ∧ w.2 - w.1 ≤ PAGE_SIZE_IN_DAYS ∧
      (w.2 = w.1 + PAGE_SIZE_IN_DAYS ∨ w.2 = e) :=
  windows_facts (e - s).toNat s e le_rfl w hw

theorem windows_chain :
    ∀ (n : Nat) (s e : Int), (e - s).toNat ≤ n →
      List.Chain' (fun a c => a.2 = c.1) (windows s e) := by
  intro n
  induction n with
  | zero =>
      intro s e hn
      have hns : ¬ s < e := by omega
      rw [windows_neg hns]
      exact List.chain'_nil
  | succ m ih =>
      intro s e hn
      by_cases h : s < e
      · rw [windows_pos h]
        have hc1 := clipEnd_gt h
        refine List.chain'_cons'.mpr ⟨?_, ih (clipEnd s e) e (by omega)⟩
        intro y hy
        by_cases h2 : clipEnd s e < e
        · rw [windows_pos h2] at hy
          simp only [List.head?_cons, Option.mem_def, Option.some.injEq] at hy
          rw [← hy]
        · rw [windows_neg h2] at hy
          cases hy
      · rw [windows_neg h]
        exact List.chain'_nil

theorem windows_65 (s : Int) :
    windows s (s + 65) = [(s, s + 30), (s + 30, s + 60), (s + 60, s + 65)] := by
  have c1 : clipEnd s (s + 65) = s + 30 := by
    simp only [clipEnd, PAGE_SIZE_IN_DAYS]
    rw [if_neg (by omega)]
  have c2 : clipEnd (s + 30) (s + 65) = s + 60 := by
    simp only [clipEnd, PAGE_SIZE_IN_DAYS]
    rw [if_neg (by omega)]
    omega
  have c3 : clipEnd (s + 60) (s + 65) = s + 65 := by
    simp only [clipEnd, PAGE_SIZE_IN_DAYS]
    rw [if_pos (by omega)]
  rw [windows_pos (by omega), c1, windows_pos (by omega), c2,
    windows_pos (by omega), c3, windows_neg (by omega)]

/-! ## The window loop -/

theorem get_campaigns_in_range_neg {api : Int → Int → SailthruResponse}
    {s e : Int} (h : ¬ s < e) : get_campaigns_in_range api s e = .ok [] := by
  rw [get_campaigns_in_range, if_neg h]
  rfl

theorem get_campaigns_in_range_pos {api : Int → Int → SailthruResponse}
    {s e : Int} (h : s < e) :
    get_campaigns_in_range api s e = (do
      let page ← processWindow api (s, clipEnd s e)
      let rest ← get_campaigns_in_range api (clipEnd s e) e
      pure (page ++ rest)) := by
  rw [get_campaigns_in_range, if_pos h]

theorem get_campaigns_eq_runWindows (api : Int → Int → SailthruResponse) :
    ∀ (n : Nat) (s e : Int), (e - s).toNat ≤ n →
      get_campaigns_in_range api s e = runWindows api (windows s e) := by
  intro n
  induction n with
  | zero =>
      intro s e hn
      have hns : ¬ s < e := by omega
      rw [get_campaigns_in_range_neg hns, windows_neg hns]
      rfl
  | succ m ih =>
      intro s e hn
      by_cases h : s < e
      · rw [get_campaigns_in_range_pos h, windows_pos h]
        have hc1 := clipEnd_gt h
        have hrec := ih (clipEnd s e) e (by omega)
        simp only [runWindows, hrec]
      · rw [get_campaigns_in_range_neg h, windows_neg h]
        rfl

theorem runWindows_abort {api : Int → Int → SailthruResponse} :
    ∀ (ws1 : List (Int × Int)) (w : Int × Int) (ws2 : List (Int × Int)),
      (∀ w' ∈ ws1, ∃ l, processWindow api w' = .ok l) →
      (api w.1 w.2).is_ok = false →
      runWindows api (ws1 ++ w :: ws2) = .error (.sailthruApiError
        ((api w.1 w.2).errorMessage ++ " (" ++
          toString (api w.1 w.2).errorCode ++ ")")) := by
  intro ws1
  induction ws1 with
  | nil =>
      intro w ws2 _ hfail
      simp only [List.nil_append, runWindows, processWindow_fail hfail,
        exceptBindErr]
  | cons w0 rest ih =>
      intro w ws2 hok hfail
      obtain ⟨l, hl⟩ := hok w0 (List.mem_cons_self _ _)
      simp only [List.cons_append, List.append_eq, runWindows, hl, exceptBindOk,
        ih w ws2 (fun w' hw' => hok w' (List.mem_cons_of_mem _ hw')) hfail,
        exceptBindErr]

theorem chain_ge_of_chain' :
    ∀ {w : Int × Int} {rest : List (Int × Int)},
      List.Chain' (fun a c => a.2 ≤ c.1) (w :: rest) →
      (∀ u ∈ rest, u.1 < u.2) →
      ∀ u ∈ rest, w.2 ≤ u.1 := by
  intro w rest
  induction rest generalizing w with
  | nil => intro _ _ u hu; cases hu
  | cons v tail ih =>
      intro hch hpos u hu
      have h1 : w.2 ≤ v.1 := List.chain'_cons.mp hch |>.1
      have h2 : List.Chain' (fun a c => a.2 ≤ c.1) (v :: tail) :=
        List.chain'_cons.mp hch |>.2
      rcases List.mem_cons.mp hu with rfl | hu'
      · exact h1
      · have hv : v.1 < v.2 := hpos v (List.mem_cons_self _ _)
        have := ih h2 (fun u hu => hpos u (List.mem_cons_of_mem _ hu)) u hu'
        omega


theorem runWindows_sorted {api : Int → Int → SailthruResponse}
    {time : PyVal → Int}
    (htime : ∀ c p, processCampaign c = .ok p → time p = time c) :
    ∀ (ws : List (Int × Int)) (b : Int) (out : List PyVal),
      (∀ w ∈ ws, b ≤ w.1) →
      List.Chain' (fun a c => a.2 ≤ c.1) ws →
      (∀ w ∈ ws, w.1 < w.2) →
      (∀ w ∈ ws, ∀ xs, getBlasts (api w.1 w.2) = some xs →
        (xs.map time).Sorted (· ≥ ·) ∧ ∀ c ∈ xs, w.1 ≤ time c ∧ time c < w.2) →
      runWindows api ws = .ok out →
      (out.map time).Sorted (· ≤ ·) ∧ ∀ p ∈ out, b ≤ time p := by
  intro ws
  induction ws with
  | nil =>
      intro b out _ _ _ _ hrun
      simp only [runWindows, exceptPureEq, Except.ok.injEq] at hrun
      subst hrun
      exact ⟨List.sorted_nil, by intro p hp; cases hp⟩
  | cons w rest ih =>
      intro b out hb hch hpos hwin hrun
      simp only [runWindows] at hrun
      cases hpw : processWindow api w with
      | error e => rw [hpw] at hrun; simp at hrun
      | ok page =>
          rw [hpw] at hrun
          cases hrw : runWindows api rest with
          | error e => rw [hrw] at hrun; simp at hrun
          | ok tail =>
              rw [hrw] at hrun
              simp only [exceptBindOk, exceptPureEq, Except.ok.injEq] at hrun
              subst hrun
              obtain ⟨hok, xs, hbl, hpl⟩ := processWindow_ok_inv hpw
              obtain ⟨hxs_sorted, hxs_bounds⟩ :=
                hwin w (List.mem_cons_self _ _) xs hbl
              have hf2 := processList_ok_forall₂ hpl
              have hmap : page.map time = (xs.map time).reverse := by
                rw [forall₂_map_time htime hf2, List.map_reverse]
              have hpage_sorted : (page.map time).Sorted (· ≤ ·) := by
                rw [List.Sorted, hmap, List.pairwise_reverse]
                exact hxs_sorted
              have hpage_bounds : ∀ p ∈ page, w.1 ≤ time p ∧ time p < w.2 := by
                intro p hp
                obtain ⟨c, hc, hcp⟩ := forall₂_exists_of_mem_right hf2 hp
                rw [htime c p hcp]
                exact hxs_bounds c (List.mem_reverse.mp hc)
              have hw_pos : w.1 < w.2 := hpos w (List.mem_cons_self _ _)
              have hrest_lb : ∀ u ∈ rest, w.2 ≤ u.1 :=
                chain_ge_of_chain' hch
                  (fun u hu => hpos u (List.mem_cons_of_mem _ hu))
              have hch2 : List.Chain' (fun a c => a.2 ≤ c.1) rest := hch.tail
              obtain ⟨htail_sorted, htail_lb⟩ :=
                ih w.2 tail hrest_lb hch2
                  (fun u hu => hpos u (List.mem_cons_of_mem _ hu))
                  (fun u hu => hwin u (List.mem_cons_of_mem _ hu)) hrw
              constructor
              · rw [List.map_append, List.Sorted, List.pairwise_append]
                refine ⟨hpage_sorted, htail_sorted, ?_⟩
                intro a ha c hc
                obtain ⟨p, hp, rfl⟩ := List.mem_map.mp ha
                obtain ⟨q, hq, rfl⟩ := List.mem_map.mp hc
                have h1 := (hpage_bounds p hp).2
                have h2 := htail_lb q hq
                omega
              · intro p hp
                have hbw : b ≤ w.1 := hb w (List.mem_cons_self _ _)
                rcases List.mem_append.mp hp with hp' | hp'
                · have := (hpage_bounds p hp').1
                  omega
                · have := htail_lb p hp'
                  omega

/-! ## Shape of the classifier results -/

theorem emailTypeSpec_tags (ls : List PyVal) (ns ss subj : String) :
    emailTypeSpec ls ns ss subj = DiveEmailTypes.Blast ∨
    emailTypeSpec ls ns ss subj = DiveEmailTypes.WelcomeSeries ∨
    emailTypeSpec ls ns ss subj = DiveEmailTypes.Weekender ∨
    emailTypeSpec ls ns ss subj = DiveEmailTypes.Newsletter ∨
    emailTypeSpec ls ns ss subj = DiveEmailTypes.BreakingNews ∨
    emailTypeSpec ls ns ss subj = DiveEmailTypes.Unknown := by
  unfold emailTypeSpec
  split
  · exact Or.inl rfl
  split
  · exact Or.inr (Or.inl rfl)
  split
  · exact Or.inr (Or.inr (Or.inl rfl))
  split
  · exact Or.inr (Or.inr (Or.inr (Or.inl rfl)))
  split
  · exact Or.inl rfl
  split
  · exact Or.inr (Or.inr (Or.inr (Or.inr (Or.inl rfl))))
  · exact Or.inr (Or.inr (Or.inr (Or.inr (Or.inr rfl))))

theorem brandSpec_shape (ss : String) :
    brandSpec ss = .none ∨ ∃ s', brandSpec ss = .str s' := by
  unfold brandSpec
  split
  · exact Or.inr ⟨_, rfl⟩
  split
  · exact Or.inr ⟨_, rfl⟩
  split
  · exact Or.inr ⟨_, rfl⟩
  · exact Or.inl rfl

/-! ## Remaining normalizer helpers -/

theorem compatList_mem {rs : List (String × PyVal)} :
    ∀ {ds : List (String × PyVal)} {k : String} {dv : List (String × PyVal)},
      compatList rs ds = true → (k, .dict dv) ∈ ds →
      truthy (dictGet rs k (.dict [])) = true →
      compatible (dictGet rs k (.dict [])) (.dict dv) = true := by
  intro ds
  induction ds with
  | nil => intro k dv _ hm; cases hm
  | cons e rest ih =>
      obtain ⟨k0, v0⟩ := e
      intro k dv hcl hm htr
      rcases List.mem_cons.mp hm with h | h
      · cases h
        simp only [compatList, Bool.and_eq_true, Bool.or_eq_true,
          Bool.not_eq_true'] at hcl
        rcases hcl.1 with h1 | h1
        · rw [htr] at h1; cases h1
        · exact h1
      · cases v0 with
        | dict dv0 =>
            simp only [compatList, Bool.and_eq_true] at hcl
            exact ih hcl.2 h htr
        | none =>
            simp only [compatList, Bool.true_and] at hcl
            exact ih hcl h htr
        | int n =>
            simp only [compatList, Bool.true_and] at hcl
            exact ih hcl h htr
        | str s =>
            simp only [compatList, Bool.true_and] at hcl
            exact ih hcl h htr
        | list xs =>
            simp only [compatList, Bool.true_and] at hcl
            exact ih hcl h htr

theorem dictGet_default_or_mem :
    ∀ (rs : List (String × PyVal)) (k : String) (d : PyVal),
      dictGet rs k d = d ∨ (k, dictGet rs k d) ∈ rs := by
  intro rs k d
  induction rs with
  | nil => exact Or.inl rfl
  | cons e rest ih =>
      obtain ⟨k0, v0⟩ := e
      by_cases h : k0 = k
      · subst h
        simp only [dictGet, if_pos rfl]
        exact Or.inr (List.mem_cons_self _ _)
      · simp only [dictGet, if_neg h]
        rcases ih with h1 | h1
        · exact Or.inl h1
        · exact Or.inr (List.mem_cons_of_mem _ h1)

theorem secondLoop_disjoint :
    ∀ {rs results : List (String × PyVal)}, keysUnique rs = true →
      (∀ k v, (k, v) ∈ rs → hasKey results k = false) →
      secondLoop rs results = results ++ rs := by
  intro rs
  induction rs with
  | nil => intro results _ _; simp [secondLoop]
  | cons e rest ih =>
      obtain ⟨k0, v0⟩ := e
      intro results hu hdisj
      simp only [keysUnique, Bool.and_eq_true, Bool.not_eq_true'] at hu
      have h0 : hasKey results k0 = false := hdisj k0 v0 (List.mem_cons_self _ _)
      simp only [secondLoop, h0, Bool.false_eq_true, reduceIte]
      rw [dictSet_eq_append v0 h0, ih hu.2]
      · simp
      · intro k v hm
        have h1 : hasKey results k = false := hdisj k v (List.mem_cons_of_mem _ hm)
        have h2 : k0 ≠ k := by
          rintro rfl
          exact absurd (hasKey_iff_exists.mpr ⟨v, hm⟩) (by simp [hu.1])
        simp [hasKey_append, h1, hasKey, h2]

/-- Merging any well-formed dict against empty defaults returns it
unchanged (the second loop copies every binding through). -/
theorem merge_results_empty_defaults {os : List (String × PyVal)}
    (hu : keysUnique os = true) :
    merge_results (.dict os) (.dict []) = .ok (.dict os) := by
  have h1 : mergeLoop os ([] : List (String × PyVal)) [] = .ok [] := by
    simp [mergeLoop]
  simp only [merge_results, h1, exceptMapOk, Except.ok.injEq, PyVal.dict.injEq]
  have h2 : ∀ (k : String) (v : PyVal), (k, v) ∈ os →
      hasKey ([] : List (String × PyVal)) k = false := fun _ _ _ => rfl
  rw [secondLoop_disjoint hu h2]
  simp

/-! # Claim theorems -/

/-- C3 (code_bug evaluation): at the failing input — raw value null under a
non-mapping default — `merge_results` keeps the null instead of falling back
to the default, contradicting the claim and the function's own docstring
("Also sets values of None", "no None values unless they come from
defaults"): merging raw `count: None` against default `count: 5` yields
`count: None`, not `count: 5`. -/
theorem claim_C3_null_not_defaulted :
    merge_results (.dict [("count", .none)]) (.dict [("count", .int 5)]) =
      .ok (.dict [("count", .none)]) := by
  simp [merge_results, mergeLoop, secondLoop, dictGet, dictSet, hasKey]

/-- C4: for a key whose default value is not a mapping, the merged value is
exactly `R.get(k, D[k])`: a present key is copied even when falsy, an
absent key falls back to the default.  The two concrete conjuncts are the
spec's examples: raw `count: 0` survives against default `count: 5`, and an
empty raw mapping receives `count: 5`. -/
theorem claim_C4_falsy_preserved :
    (∀ (rs ds os : List (String × PyVal)) (k : String) (v : PyVal),
      keysUnique ds = true → (k, v) ∈ ds → (∀ dv, v ≠ .dict dv) →
      merge_results (.dict rs) (.dict ds) = .ok (.dict os) →
      dictGet os k v = dictGet rs k v) ∧
    merge_results (.dict [("count", .int 0)]) (.dict [("count", .int 5)]) =
      .ok (.dict [("count", .int 0)]) ∧
    merge_results (.dict []) (.dict [("count", .int 5)]) =
      .ok (.dict [("count", .int 5)]) := by
  refine ⟨?_, ?_, ?_⟩
  · intro rs ds os k v hu hm hnd h
    obtain ⟨nv, hentry, hget⟩ := merge_lookup hu hm h v
    rw [mergeEntry_of_ne_dict hnd] at hentry
    simp only [exceptPureEq, Except.ok.injEq] at hentry
    rw [hget, ← hentry]
  · simp [merge_results, mergeLoop, secondLoop, dictGet, dictSet, hasKey]
  · simp [merge_results, mergeLoop, secondLoop, dictGet, dictSet, hasKey]

theorem claim_C4_witness :
    dictGet [("count", PyVal.int 5)] "count" (PyVal.int 5) =
      dictGet [] "count" (PyVal.int 5) := by
  refine claim_C4_falsy_preserved.1 [] [("count", PyVal.int 5)]
    [("count", PyVal.int 5)] "count" (PyVal.int 5) rfl (by simp)
    (fun dv h => by cases h) ?_
  simp [merge_results, mergeLoop, secondLoop, dictGet, dictSet, hasKey]

/-- C8: merging a well-formed raw mapping with itself as the default is the
identity, and merging an empty raw mapping with defaults yields exactly the
defaults.  (Well-formedness — unique keys at every level — is the Python
dict invariant the association-list model makes explicit.) -/
theorem claim_C8_roundtrip :
    (∀ rs : List (String × PyVal), pyWF (.dict rs) = true →
      merge_results (.dict rs) (.dict rs) = .ok (.dict rs)) ∧
    (∀ ds : List (String × PyVal), keysUnique ds = true →
      merge_results (.dict []) (.dict ds) = .ok (.dict ds)) :=
  ⟨fun _ h => merge_results_self h, fun _ h => merge_results_empty_left h⟩

theorem claim_C8_witness :
    merge_results (.dict [("a", .int 1), ("b", .dict [("c", .str "x")])])
        (.dict [("a", .int 1), ("b", .dict [("c", .str "x")])]) =
      .ok (.dict [("a", .int 1), ("b", .dict [("c", .str "x")])]) ∧
    merge_results (.dict []) user_dict = .ok user_dict := by
  constructor
  · exact claim_C8_roundtrip.1 _ (by
      simp [pyWF, pyWFDict, pyWFList, keysUnique, hasKey])
  · exact claim_C8_roundtrip.2 _ (by
      simp [keysUnique, hasKey])

/-- C7 (counterexample): when `R[k]` is present but empty/falsy under a
mapping default, the output is the *default* `D[k]`, not `R[k]` as the
claim states: raw `a: {}` against default `a: {x: 1}` yields `a: {x: 1}`. -/
theorem claim_C7_counterexample :
    merge_results (.dict [("a", .dict [])]) (.dict [("a", .dict [("x", .int 1)])]) =
      .ok (.dict [("a", .dict [("x", .int 1)])]) ∧
    ¬ merge_results (.dict [("a", .dict [])]) (.dict [("a", .dict [("x", .int 1)])]) =
      .ok (.dict [("a", .dict [])]) := by
  have h : merge_results (.dict [("a", .dict [])])
      (.dict [("a", .dict [("x", .int 1)])]) =
      .ok (.dict [("a", .dict [("x", .int 1)])]) := by
    simp [merge_results, mergeLoop, secondLoop, dictGet, dictSet, hasKey, truthy]
  refine ⟨h, fun hcontra => ?_⟩
  rw [h] at hcontra
  simp at hcontra

/-- C7 (amended): for a defaults key `k` with mapping value `D[k]`: if
`R[k]` is present and truthy, the output at `k` is the recursive merge of
`R[k]` with `D[k]` (when `D[k]` is empty that merge returns `R[k]`
unchanged); if `k` is absent from `R` **or present but empty/falsy**, the
output at `k` is `D[k]` as-is. -/
theorem claim_C7_dict_defaults
    {rs ds os dv : List (String × PyVal)} {k : String}
    (hwfr : pyWF (.dict rs) = true)
    (hcompat : compatible (.dict rs) (.dict ds) = true)
    (hu : keysUnique ds = true)
    (hm : (k, .dict dv) ∈ ds)
    (h : merge_results (.dict rs) (.dict ds) = .ok (.dict os)) :
    (truthy (dictGet rs k (.dict [])) = true →
      merge_results (dictGet rs k (.dict [])) (.dict dv) =
        .ok (dictGet os k .none)) ∧
    (truthy (dictGet rs k (.dict [])) = false →
      dictGet os k .none = .dict dv) := by
  obtain ⟨nv, hentry, hget⟩ := merge_lookup hu hm h .none
  constructor
  · intro htr
    cases hdv : truthy (.dict dv) with
    | true =>
        simp only [mergeEntry, htr, hdv, Bool.and_self, if_pos] at hentry
        rw [hget]
        exact hentry
    | false =>
        simp only [mergeEntry, htr, hdv, Bool.and_false, Bool.false_eq_true,
          reduceIte, exceptPureEq, Except.ok.injEq] at hentry
        have hdv_nil : dv = [] := by
          simp only [truthy, Bool.not_eq_true', List.isEmpty_iff] at hdv
          simpa using hdv
        subst hdv_nil
        have hcl : compatList rs ds = true := by
          simpa only [compatible] using hcompat
        have hcomp := compatList_mem hcl hm htr
        cases hval : dictGet rs k (.dict []) with
        | dict os' =>
            rw [hval] at hentry
            have hmem : (k, PyVal.dict os') ∈ rs := by
              rcases dictGet_default_or_mem rs k (.dict []) with h1 | h1
              · rw [hval] at h1
                cases h1
                rw [hval] at htr
                cases htr
              · rw [hval] at h1
                exact h1
            have hwfv : pyWF (.dict os') = true :=
              pyWFDict_mem (pyWF_dict_parts hwfr).2 hmem
            have huo : keysUnique os' = true := (pyWF_dict_parts hwfv).1
            rw [hget, ← hentry]
            exact merge_results_empty_defaults huo
        | none => rw [hval] at hcomp; simp [compatible] at hcomp
        | int n => rw [hval] at hcomp; simp [compatible] at hcomp
        | str s => rw [hval] at hcomp; simp [compatible] at hcomp
        | list xs => rw [hval] at hcomp; simp [compatible] at hcomp
  · intro htr
    simp only [mergeEntry, htr, Bool.false_and, Bool.false_eq_true, reduceIte,
      exceptPureEq, Except.ok.injEq] at hentry
    rw [hget, ← hentry]

theorem claim_C7_witness :
    merge_results (.dict [("y", .int 7)]) (.dict [("x", .int 1)]) =
      .ok (.dict [("x", .int 1), ("y", .int 7)]) := by
  have hwfr : pyWF (.dict [("a", .dict [("y", .int 7)])]) = true := by
    simp [pyWF, pyWFDict, pyWFList, keysUnique, hasKey]
  have hcompat : compatible (.dict [("a", .dict [("y", .int 7)])])
      (.dict [("a", .dict [("x", .int 1)])]) = true := by
    simp [compatible, compatList, dictGet, truthy]
  have hm : ("a", PyVal.dict [("x", .int 1)]) ∈
      [("a", PyVal.dict [("x", .int 1)])] := by simp
  have hmerge : merge_results (.dict [("a", .dict [("y", .int 7)])])
      (.dict [("a", .dict [("x", .int 1)])]) =
      .ok (.dict [("a", .dict [("x", .int 1), ("y", .int 7)])]) := by
    simp [merge_results, mergeLoop, secondLoop, dictGet, dictSet, hasKey, truthy]
  have h := (claim_C7_dict_defaults hwfr hcompat rfl hm hmerge).1 rfl
  exact h

/-- C2 (counterexample): for the all-caps list `"FOO BLAST LIST"` the
case-insensitive rule-5 check fires (type `Blast`), but the brand regex
`' [Bb]last [Ll]ist$'` does not match the all-caps suffix, so the brand is
the list name *unchanged* — not `"FOO"` with the suffix removed as the
claim ("under any capitalization of those words") states. -/
theorem claim_C2_counterexample :
    inferDiveEmailType (.dict [("list", .str "FOO BLAST LIST")]) =
      .ok DiveEmailTypes.Blast ∧
    inferDiveBrand (.dict [("list", .str "FOO BLAST LIST")]) =
      .ok (.str "FOO BLAST LIST") ∧
    ¬ inferDiveBrand (.dict [("list", .str "FOO BLAST LIST")]) =
      .ok (.str "FOO") := by
  have h2 : inferDiveBrand (.dict [("list", .str "FOO BLAST LIST")]) =
      .ok (.str "FOO BLAST LIST") := rfl
  refine ⟨rfl, h2, fun hcontra => ?_⟩
  rw [h2] at hcontra
  simp at hcontra

/-- C2 (amended): for every campaign whose list name is a string that,
lowercased, ends with `"blast list"`, and which matches none of the earlier
type rules 1-4, the inferred type is the `Blast` tag; the inferred brand is
the list name with the trailing 11-character `" blast list"` suffix removed
when each suffix word is lowercase or initial-capitalized (the regex
`' [Bb]last [Ll]ist$'`), and the list name unchanged under any other
capitalization. -/
theorem claim_C2_blast_list
    {cs : List (String × PyVal)} {ls : List PyVal} {ns ss subj : String}
    (hlab : dictGet cs "labels" (.list []) = .list ls)
    (hname : dictGet cs "name" (.str "") = .str ns)
    (hlist : dictGet cs "list" (.str "") = .str ss)
    (hsub : dictGet cs "subject" (.str "") = .str subj)
    (hr1a : strElem ls "Blast" = false)
    (hr1b : strContains ns "-blast-" = false)
    (hr2 : strElem ls "Welcome Series" = false)
    (hr3a : strEndsWith ss "Weekender" = false)
    (hr3b : strStartsWith ns "Newsletter Weekly Roundup" = false)
    (hr4a : strElem ls "newsletter" = false)
    (hr4b : strStartsWith ns "Issue: " = false)
    (hbl : strEndsWith (strToLower ss) "blast list" = true) :
    inferDiveEmailType (.dict cs) = .ok DiveEmailTypes.Blast ∧
    inferDiveBrand (.dict cs) = .ok (.str
      (if strEndsWith ss " blast list" || strEndsWith ss " blast List" ||
          strEndsWith ss " Blast list" || strEndsWith ss " Blast List" then
        strDropRight ss 11
      else ss)) := by
  constructor
  · rw [inferDiveEmailType_eq_spec hlab hname hlist hsub]
    simp only [emailTypeSpec, hr1a, hr1b, hr2, hr3a, hr3b, hr4a, hr4b, hbl,
      Bool.or_self, Bool.false_eq_true, reduceIte, if_true]
  · rw [inferDiveBrand_eq_spec hlist]
    simp only [brandSpec, hbl, if_true, stripBlastListSuffix]

theorem claim_C2_witness :
    inferDiveEmailType (.dict [("list", .str "Utility Dive: Solar blast list")]) =
      .ok DiveEmailTypes.Blast ∧
    inferDiveBrand (.dict [("list", .str "Utility Dive: Solar blast list")]) =
      .ok (.str "Utility Dive: Solar") := by
  have h := @claim_C2_blast_list [("list", .str "Utility Dive: Solar blast list")]
    [] "" "Utility Dive: Solar blast list" ""
    rfl rfl rfl rfl rfl rfl rfl rfl rfl rfl rfl rfl
  exact ⟨h.1, h.2⟩

/-- C6 (counterexample): classification and normalization are *not* total on
arbitrary records/mappings.  A campaign whose `subject` is present but null
raises `AttributeError` at the unconditional `.encode` step (before any rule
is tested), instead of degrading to `Unknown`; and `merge_results` raises
`AttributeError` when a truthy non-mapping raw value meets a mapping
default. -/
theorem claim_C6_counterexample :
    inferDiveEmailType (.dict [("subject", .none)]) = .error .attributeError ∧
    merge_results (.dict [("a", .int 1)]) (.dict [("a", .dict [("x", .int 2)])]) =
      .error .attributeError := by
  refine ⟨rfl, ?_⟩
  simp [merge_results, mergeLoop, dictGet, truthy]

/-- C6 (amended): classification is total and never raises on campaign
records whose present `labels`/`name`/`list`/`subject` fields are
well-typed (a list and strings; a missing field falls back to its default),
always returning one of the six fixed tags and a brand that is a string or
`None`; and normalization is total on compatible mappings (wherever the
defaults hold a mapping, a truthy raw value at that key is a mapping,
recursively). -/
theorem claim_C6_totality :
    (∀ (cs : List (String × PyVal)) (ls : List PyVal) (ns ss subj : String),
      dictGet cs "labels" (.list []) = .list ls →
      dictGet cs "name" (.str "") = .str ns →
      dictGet cs "list" (.str "") = .str ss →
      dictGet cs "subject" (.str "") = .str subj →
      inferDiveEmailType (.dict cs) = .ok (emailTypeSpec ls ns ss subj) ∧
      (emailTypeSpec ls ns ss subj = DiveEmailTypes.Blast ∨
        emailTypeSpec ls ns ss subj = DiveEmailTypes.WelcomeSeries ∨
        emailTypeSpec ls ns ss subj = DiveEmailTypes.Weekender ∨
        emailTypeSpec ls ns ss subj = DiveEmailTypes.Newsletter ∨
        emailTypeSpec ls ns ss subj = DiveEmailTypes.BreakingNews ∨
        emailTypeSpec ls ns ss subj = DiveEmailTypes.Unknown) ∧
      inferDiveBrand (.dict cs) = .ok (brandSpec ss) ∧
      (brandSpec ss = .none ∨ ∃ s', brandSpec ss = .str s')) ∧
    (∀ r d : PyVal, compatible r d = true → ∃ o, merge_results r d = .ok o) := by
  constructor
  · intro cs ls ns ss subj hlab hname hlist hsub
    exact ⟨inferDiveEmailType_eq_spec hlab hname hlist hsub,
      emailTypeSpec_tags ls ns ss subj,
      inferDiveBrand_eq_spec hlist,
      brandSpec_shape ss⟩
  · intro r d hc
    exact merge_total hc

theorem claim_C6_witness :
    inferDiveEmailType (.dict []) = .ok (emailTypeSpec [] "" "" "") ∧
    (merge_results (.dict [("vars", .none)]) user_dict).isOk = true := by
  constructor
  · exact (claim_C6_totality.1 [] [] "" "" "" rfl rfl rfl rfl).1
  · obtain ⟨o, ho⟩ := claim_C6_totality.2 (.dict [("vars", .none)]) user_dict
      (by simp [user_dict, user_dict_entries, compatible, compatList, dictGet, truthy])
    rw [ho]
    rfl

/-- C10: a raw campaign record without a `subject` key makes
`get_campaigns_in_range` raise an uncaught `KeyError` at the direct
indexing `c['subject']` (not the uniform API error), even though the
classifier reads every field with a default.  Conjuncts: the loop body
raises `KeyError` on any such well-typed record; a full range call over a
window containing such a record fails with `KeyError`; and that error is
not a `SailthruApiError`. -/
theorem claim_C10_missing_subject :
    (∀ (cs : List (String × PyVal)) (ls : List PyVal) (ns ss : String),
      dictGet cs "labels" (.list []) = .list ls →
      dictGet cs "name" (.str "") = .str ns →
      dictGet cs "list" (.str "") = .str ss →
      hasKey cs "subject" = false →
      processCampaign (.dict cs) = .error .keyError) ∧
    get_campaigns_in_range apiMissingSubject 0 10 = .error .keyError ∧
    (∀ msg, (Except.error PyErr.keyError : Except PyErr (List PyVal)) ≠
      .error (.sailthruApiError msg)) := by
  refine ⟨?_, ?_, ?_⟩
  · intro cs ls ns ss hlab hname hlist habs
    exact processCampaign_keyError hlab hname hlist habs
  · rw [get_campaigns_in_range_pos (by norm_num)]
    rfl
  · intro msg h
    cases h

theorem claim_C10_witness :
    processCampaign (.dict [("name", .str "x")]) = .error .keyError :=
  claim_C10_missing_subject.1 [("name", .str "x")] [] "x" "" rfl rfl rfl rfl

/-- C5: if any window of a multi-window range query gets a failing response
(all windows before it succeeding), the whole call raises the single
`SailthruApiError` formatted `"<message> (<code>)"` from that window's
error, and no campaigns are returned (the result is the error, with no
partial list). -/
theorem claim_C5_window_failure_aborts
    {api : Int → Int → SailthruResponse} {s e : Int}
    {ws1 ws2 : List (Int × Int)} {w : Int × Int}
    (hsplit : windows s e = ws1 ++ w :: ws2)
    (hok : ∀ w' ∈ ws1, ∃ l, processWindow api w' = .ok l)
    (hfail : (api w.1 w.2).is_ok = false) :
    get_campaigns_in_range api s e = .error (.sailthruApiError
      ((api w.1 w.2).errorMessage ++ " (" ++
        toString (api w.1 w.2).errorCode ++ ")")) := by
  rw [get_campaigns_eq_runWindows api (e - s).toNat s e le_rfl, hsplit]
  exact runWindows_abort ws1 w ws2 hok hfail

theorem claim_C5_witness :
    get_campaigns_in_range apiInvalidKey 0 65 =
      .error (.sailthruApiError "Invalid API key (9)") := by
  have hsplit : windows 0 65 = [((0 : Int), (30 : Int))] ++
      ((30 : Int), (60 : Int)) :: [((60 : Int), (65 : Int))] := by
    have h := windows_65 0
    norm_num at h
    simpa using h
  have hok : ∀ w' ∈ [((0 : Int), (30 : Int))],
      ∃ l, processWindow apiInvalidKey w' = .ok l := by
    intro w' hw'
    simp only [List.mem_singleton] at hw'
    subst hw'
    exact ⟨[], rfl⟩
  have h := claim_C5_window_failure_aborts hsplit hok rfl
  exact h

/-- C9: for every successful vendor get-user response whose body is a dict
compatible with the default user shape, if the body omits `vars` or binds
it to null, the safe lookup succeeds and the result's `vars` equals the
default empty mapping; and when the raw body is falsy (empty/absent), the
normalizer is bypassed and the response carries the full default template
as-is. -/
theorem claim_C9_safe_user_vars
    (resp : SailthruResponse) (rs : List (String × PyVal))
    (hok : resp.is_ok = true) :
    (resp.json = .dict rs →
      compatible (.dict rs) user_dict = true →
      (hasKey rs "vars" = false ∨ dictGet rs "vars" (.dict []) = .none) →
      ∃ out os, get_user resp = .ok out ∧ out.json = .dict os ∧
        dictGet os "vars" .none = .dict []) ∧
    (truthy resp.json = false →
      get_user resp = .ok { resp with json := user_dict }) := by
  have hbypass : truthy resp.json = false →
      get_user resp = .ok { resp with json := user_dict } := by
    intro htr
    simp [get_user, create_response, hok, htr]
  constructor
  · intro hjson hcompat hvars
    have hold : truthy (dictGet rs "vars" (.dict [])) = false := by
      rcases hvars with h | h
      · rw [dictGet_of_not_hasKey h]; rfl
      · rw [h]; rfl
    cases htr : truthy resp.json with
    | false =>
        exact ⟨{ resp with json := user_dict }, user_dict_entries,
          hbypass htr, rfl, rfl⟩
    | true =>
        have hc2 : compatible (.dict rs) user_dict = true := hcompat
        obtain ⟨o, ho⟩ := merge_total hc2
        have hu : keysUnique user_dict_entries = true := rfl
        have hm : ("vars", PyVal.dict []) ∈ user_dict_entries := by
          simp [user_dict_entries]
        have ho2 : merge_results (.dict rs) (.dict user_dict_entries) = .ok o := ho
        rw [merge_results_eq_mergeEntries hu] at ho2
        cases hme : mergeEntries rs user_dict_entries with
        | error e => rw [hme] at ho2; simp at ho2
        | ok l =>
            rw [hme] at ho2
            simp only [exceptMapOk, Except.ok.injEq] at ho2
            have hmo : merge_results (.dict rs) (.dict user_dict_entries) =
                .ok (.dict (secondLoop rs l)) := by
              rw [merge_results_eq_mergeEntries hu, hme]
              rfl
            obtain ⟨nv, hentry, hget⟩ := merge_lookup hu hm hmo .none
            simp only [mergeEntry, hold, Bool.false_and, Bool.false_eq_true,
              reduceIte, exceptPureEq, Except.ok.injEq] at hentry
            refine ⟨{ resp with json := o }, secondLoop rs l, ?_, ?_, ?_⟩
            · have hmo2 : merge_results resp.json user_dict = .ok o := by
                rw [hjson]
                exact ho
              simp [get_user, create_response, hok, htr, hmo2]
            · simp only [← ho2]
            · rw [hget, ← hentry]
  · exact hbypass

theorem claim_C9_witness :
    get_user respNullVars = .ok
      { is_ok := true, errorMessage := "", errorCode := 0,
        json := .dict
          [("keys", .dict [("sid", .str ""), ("cookie", .str ""), ("email", .str "")]),
           ("activity", .str ""), ("vars", .dict []), ("lists", .dict []),
           ("engagement", .str ""), ("optout_email", .str ""), ("id", .int 3)] } ∧
    dictGet
      [("keys", PyVal.dict [("sid", .str ""), ("cookie", .str ""), ("email", .str "")]),
       ("activity", PyVal.str ""), ("vars", PyVal.dict []), ("lists", PyVal.dict []),
       ("engagement", PyVal.str ""), ("optout_email", PyVal.str ""), ("id", PyVal.int 3)]
      "vars" .none = .dict [] := by
  obtain ⟨out, os, hgu, hjson, hvars⟩ :=
    (claim_C9_safe_user_vars respNullVars [("vars", .none), ("id", .int 3)] rfl).1
      rfl
      (by simp [user_dict, user_dict_entries, compatible, compatList, dictGet, truthy])
      (Or.inr rfl)
  constructor
  · simp [get_user, create_response, respNullVars, user_dict, user_dict_entries,
      merge_results, mergeLoop, secondLoop, dictGet, dictSet, hasKey, truthy]
  · rfl

/-- C1: for `start_date < end_date` the range query partitions
`[start_date, end_date)` into consecutive windows of at most 30 days whose
last window is clipped to `end_date` (a 65-day range yields exactly the
windows of 30, 30 and 5 days); the call equals processing those windows in
order, each window's vendor list reversed page-by-page before
concatenation (`runWindows`/`processWindow`); when the vendor returns each
window's blasts newest-first with send times inside the window, the result
is fully ascending in send time; and for `start_date ≥ end_date` the call
returns an empty list without error. -/
theorem claim_C1_paginated_range
    (api : Int → Int → SailthruResponse) (s e : Int) :
    (s ≥ e → get_campaigns_in_range api s e = .ok []) ∧
    (∀ w ∈ windows s e, s ≤ w.1 ∧ w.1 < w.2 ∧ w.2 ≤ e ∧
      w.2 - w.1 ≤ 30 ∧ (w.2 = w.1 + 30 ∨ w.2 = e)) ∧
    List.Chain' (fun a c => a.2 = c.1) (windows s e) ∧
    windows s (s + 65) = [(s, s + 30), (s + 30, s + 60), (s + 60, s + 65)] ∧
    get_campaigns_in_range api s e = runWindows api (windows s e) ∧
    (∀ time : PyVal → Int,
      (∀ c p, processCampaign c = .ok p → time p = time c) →
      (∀ w ∈ windows s e, ∀ xs, getBlasts (api w.1 w.2) = some xs →
        (xs.map time).Sorted (· ≥ ·) ∧ ∀ c ∈ xs, w.1 ≤ time c ∧ time c < w.2) →
      ∀ out, get_campaigns_in_range api s e = .ok out →
        (out.map time).Sorted (· ≤ ·)) := by
  refine ⟨?_, ?_, ?_, ?_, ?_, ?_⟩
  · intro h
    exact get_campaigns_in_range_neg (by omega)
  · intro w hw
    have h := windows_mem_facts hw
    simp only [PAGE_SIZE_IN_DAYS] at h
    exact h
  · exact windows_chain (e - s).toNat s e le_rfl
  · exact windows_65 s
  · exact get_campaigns_eq_runWindows api (e - s).toNat s e le_rfl
  · intro time htime hwin out hout
    rw [get_campaigns_eq_runWindows api (e - s).toNat s e le_rfl] at hout
    have hch : List.Chain' (fun a c => a.2 ≤ c.1) (windows s e) :=
      List.Chain'.imp (fun a c h => le_of_eq h)
        (windows_chain (e - s).toNat s e le_rfl)
    have hb : ∀ w ∈ windows s e, s ≤ w.1 :=
      fun w hw => (windows_mem_facts hw).1
    have hpos : ∀ w ∈ windows s e, w.1 < w.2 :=
      fun w hw => (windows_mem_facts hw).2.1
    exact (runWindows_sorted htime (windows s e) s out hb hch hpos hwin hout).1

theorem claim_C1_witness :
    get_campaigns_in_range apiAsc 0 65 = .ok
      [.dict [("subject", .str "A"), ("dive_email_type", .str "unknown"),
              ("dive_brand", .none)],
       .dict [("subject", .str "B"), ("dive_email_type", .str "unknown"),
              ("dive_brand", .none)]] ∧
    ([PyVal.dict [("subject", .str "A"), ("dive_email_type", .str "unknown"),
        ("dive_brand", .none)],
      PyVal.dict [("subject", .str "B"), ("dive_email_type", .str "unknown"),
        ("dive_brand", .none)]].map (fun _ => (0 : Int))).Sorted (· ≤ ·) := by
  have heval : get_campaigns_in_range apiAsc 0 65 = .ok
      [.dict [("subject", .str "A"), ("dive_email_type", .str "unknown"),
              ("dive_brand", .none)],
       .dict [("subject", .str "B"), ("dive_email_type", .str "unknown"),
              ("dive_brand", .none)]] := by
    rw [get_campaigns_in_range_pos (by norm_num)]
    rw [show clipEnd 0 65 = (30 : Int) from rfl]
    rw [get_campaigns_in_range_pos (by norm_num)]
    rw [show clipEnd 30 65 = (60 : Int) from rfl]
    rw [get_campaigns_in_range_pos (by norm_num)]
    rw [show clipEnd 60 65 = (65 : Int) from rfl]
    rw [get_campaigns_in_range_neg (by norm_num)]
    rfl
  have hwindows : windows 0 65 =
      [((0 : Int), (30 : Int)), ((30 : Int), (60 : Int)),
       ((60 : Int), (65 : Int))] := by
    have h := windows_65 0
    norm_num at h
    simpa using h
  refine ⟨heval, ?_⟩
  have h6 := (claim_C1_paginated_range apiAsc 0 65).2.2.2.2.2
  refine h6 (fun _ => (0 : Int)) (fun _ _ _ => rfl) ?_ _ heval
  rw [hwindows]
  intro w hw xs hxs
  simp only [List.mem_cons, List.not_mem_nil, or_false] at hw
  rcases hw with rfl | rfl | rfl
  · have hxs' : (some [testCampaignB, testCampaignA] : Option (List PyVal)) =
        some xs := hxs
    obtain rfl := (Option.some.inj hxs').symm
    refine ⟨by decide, ?_⟩
    intro c hc
    exact ⟨le_refl 0, show (0 : Int) < 30 by norm_num⟩
  · have hxs' : (some [] : Option (List PyVal)) = some xs := hxs
    obtain rfl := (Option.some.inj hxs').symm
    exact ⟨by decide, by intro c hc; cases hc⟩
  · have hxs' : (some [] : Option (List PyVal)) = some xs := hxs
    obtain rfl := (Option.some.inj hxs').symm
    exact ⟨by decide, by intro c hc; cases hc⟩
